import Mathlib

/-!
Verification of the Go day template (`fetch_day/templates/go`)

A shallow embedding of `main.stpl.go` and of the helpers of `main_test.stpl.go`.

* Go strings and file contents are byte sequences (`GoString`), not necessarily
  valid UTF-8.
* A Go function that may panic is a computation `Go α`: it takes the trace of
  events so far and gives an outcome (a value, or the value of the unrecovered
  panic) and the new trace. The trace records the file reads attempted, the
  bodies of the template's functions entered, and the lines printed.
* The standard-library functions that the template applies to the file contents
  (`strings.TrimSpace` with `strings.TrimFunc`, `unicode.IsSpace`,
  `utf8.DecodeRuneInString`, `utf8.DecodeLastRuneInString`) are transcribed from
  the Go standard library at the level of bytes.
* `os.ReadFile`, `filepath.Join` and the package name substituted into the
  template are inputs of the model (`Env`): every theorem holds for all of them.
-/

namespace Aoc

/-! ## Data model -/

/-- One byte of a Go string. -/
abbrev Byte := Fin 256

/-- Go `string`: a sequence of arbitrary bytes. -/
abbrev GoString := List Byte

/-- Go `rune` (a code point); decoding only produces non-negative values. -/
abbrev Rune := Nat

/-- The error value returned by a failed `os.ReadFile` (a `*fs.PathError`). -/
structure PathError where
  op : String
  path : String
  err : String
deriving DecidableEq

/-- Values passed to `panic` by the template, plus the runtime's own panic. -/
inductive PanicValue where
  | str (s : String)
  | err (e : PathError)
  | runtime (msg : String)
deriving DecidableEq

/-- Observable steps of an execution, oldest first: a call of `os.ReadFile`, the
entry into the body of one of the template's functions, a line written to
standard output. -/
inductive Event where
  | readFile (path : String)
  | enter (fn : String)
  | print (line : String)
deriving DecidableEq

/-- The surroundings of the generated program: the package name substituted for
`<%= &self.package_name %>`, `filepath.Join`, and the file system, which gives
the result of `os.ReadFile` for each path. -/
structure Env where
  packageName : String
  join : String → String → String
  readFile : String → Except PathError GoString

/-- A Go computation: from the trace so far to an outcome (a value, or the value
of an unrecovered panic) and the new trace. -/
abbrev Go (α : Type) := List Event → Except PanicValue α × List Event

/-- Sequencing: a panic in the first computation skips the second. -/
def Go.andThen {α β : Type} (m : Go α) (f : α → Go β) : Go β := fun t =>
  match m t with
  | (Except.ok a, t1) => f a t1
  | (Except.error e, t1) => (Except.error e, t1)

instance : Monad Go where
  pure a := fun t => (Except.ok a, t)
  bind := Go.andThen

/-- Go `panic(v)`. -/
def goPanic {α : Type} (v : PanicValue) : Go α := fun t => (Except.error v, t)

/-- Record one event. -/
def emit (e : Event) : Go Unit := fun t => (Except.ok (), t ++ [e])

/-- Go `type Input struct{}`. -/
structure Input where
deriving DecidableEq

/-- Go `const part1Solution = 0`. -/
def part1Solution : Int := 0

/-- Go `const part2Solution = 0`. -/
def part2Solution : Int := 0

/-! ## Standard library: `unicode/utf8`

Transcribed from the Go standard library; bytes and runes are natural numbers. -/

/-- Go `utf8.RuneError`, the replacement character U+FFFD. -/
def RuneError : Rune := 0xFFFD

/-- Go `utf8.RuneSelf`: bytes below it are single-byte runes. -/
def RuneSelf : Nat := 0x80

/-- Go `utf8.UTFMax`, the longest encoding of a rune in bytes. -/
def UTFMax : Nat := 4

/-- Go `maskx = 0b00111111`. -/
def maskx : Nat := 0x3F

/-- Go `mask2 = 0b00011111`. -/
def mask2 : Nat := 0x1F

/-- Go `mask3 = 0b00001111`. -/
def mask3 : Nat := 0x0F

/-- Go `mask4 = 0b00000111`. -/
def mask4 : Nat := 0x07

/-- Go `locb = 0b10000000`, the lowest continuation byte. -/
def locb : Nat := 0x80

/-- Go `hicb = 0b10111111`, the highest continuation byte. -/
def hicb : Nat := 0xBF

/-- Go `xx = 0xF1`: invalid, size 1. -/
def xx : Nat := 0xF1

/-- Go `as = 0xF0`: ASCII, size 1. -/
def as : Nat := 0xF0

/-- Go `s1 = 0x02`: accept range 0, size 2. -/
def s1 : Nat := 0x02

/-- Go `s2 = 0x13`: accept range 1, size 3. -/
def s2 : Nat := 0x13

/-- Go `s3 = 0x03`: accept range 0, size 3. -/
def s3 : Nat := 0x03

/-- Go `s4 = 0x23`: accept range 2, size 3. -/
def s4 : Nat := 0x23

/-- Go `s5 = 0x34`: accept range 3, size 4. -/
def s5 : Nat := 0x34

/-- Go `s6 = 0x04`: accept range 0, size 4. -/
def s6 : Nat := 0x04

/-- Go `s7 = 0x44`: accept range 4, size 4. -/
def s7 : Nat := 0x44

/-- The table `first`: information about the first byte of a UTF-8 sequence. -/
def first (b : Nat) : Nat :=
  if b < 0x80 then as
  else if b < 0xC2 then xx
  else if b < 0xE0 then s1
  else if b = 0xE0 then s2
  else if b < 0xED then s3
  else if b = 0xED then s4
  else if b < 0xF0 then s3
  else if b = 0xF0 then s5
  else if b < 0xF4 then s6
  else if b = 0xF4 then s7
  else xx

/-- Go `acceptRange`: the range of valid values for the second byte of a sequence. -/
structure AcceptRange where
  lo : Nat
  hi : Nat

/-- The table `acceptRanges` (entries 5 to 15 are zero). -/
def acceptRanges (i : Nat) : AcceptRange :=
  match i with
  | 0 => ⟨locb, hicb⟩
  | 1 => ⟨0xA0, hicb⟩
  | 2 => ⟨locb, 0x9F⟩
  | 3 => ⟨0x90, hicb⟩
  | 4 => ⟨locb, 0x8F⟩
  | _ => ⟨0, 0⟩

/-- Go `s[i]` as a number; the callers keep `i` in bounds. -/
def byteAt (s : GoString) (i : Nat) : Nat := (s.getD i 0).val

/-- Go `s[i:j]`. -/
def slice (s : GoString) (i j : Nat) : GoString := (s.take j).drop i

/-- Go `utf8.DecodeRuneInString`. The branch for `x >= as` computes
`mask := rune(x) << 31 >> 31` in 32-bit two's complement, which is all ones when
the low bit of `x` is set and zero otherwise. -/
def decodeRune (s : GoString) : Rune × Nat :=
  let n := s.length
  if n < 1 then (RuneError, 0)
  else
    let b0 := byteAt s 0
    let x := first b0
    if x ≥ as then
      let mask := 0xFFFFFFFF * (((x <<< 31) % 2 ^ 32) >>> 31)
      ((b0 &&& (0xFFFFFFFF ^^^ mask)) ||| (RuneError &&& mask), 1)
    else
      let sz := x &&& 7
      let accept := acceptRanges (x >>> 4)
      if n < sz then (RuneError, 1)
      else
        let b1 := byteAt s 1
        if b1 < accept.lo ∨ accept.hi < b1 then (RuneError, 1)
        else if sz ≤ 2 then (((b0 &&& mask2) <<< 6) ||| (b1 &&& maskx), 2)
        else
          let b2 := byteAt s 2
          if b2 < locb ∨ hicb < b2 then (RuneError, 1)
          else if sz ≤ 3 then
            (((b0 &&& mask3) <<< 12) ||| ((b1 &&& maskx) <<< 6) ||| (b2 &&& maskx), 3)
          else
            let b3 := byteAt s 3
            if b3 < locb ∨ hicb < b3 then (RuneError, 1)
            else
              (((b0 &&& mask4) <<< 18) ||| ((b1 &&& maskx) <<< 12) ||| ((b2 &&& maskx) <<< 6)
                ||| (b3 &&& maskx), 4)

/-- Go `utf8.RuneStart`. -/
def RuneStart (b : Nat) : Bool := (b &&& 0xC0) ≠ 0x80

/-- The backwards scan of `DecodeLastRuneInString`:
`for start--; start >= lim; start-- { if RuneStart(s[start]) { break } }`,
entered with `start` already decremented once. At most `UTFMax` tests of the
loop condition happen. -/
def backScan (s : GoString) (lim : Int) : Nat → Int → Int
  | 0, start => start
  | n + 1, start =>
    if start ≥ lim then
      if RuneStart (byteAt s start.toNat) then start
      else backScan s lim n (start - 1)
    else start

/-- Go `utf8.DecodeLastRuneInString`. -/
def decodeLastRune (s : GoString) : Rune × Nat :=
  let end_ : Int := s.length
  if end_ = 0 then (RuneError, 0)
  else
    let start : Int := end_ - 1
    let r := byteAt s start.toNat
    if r < RuneSelf then (r, 1)
    else
      let lim : Int := end_ - UTFMax
      let lim : Int := if lim < 0 then 0 else lim
      let start := backScan s lim UTFMax (start - 1)
      let start : Int := if start < 0 then 0 else start
      let d := decodeRune (slice s start.toNat end_.toNat)
      if start + d.2 ≠ end_ then (RuneError, 1)
      else (d.1, d.2)

/-! ## Standard library: `unicode` -/

/-- Go `unicode.MaxLatin1`. -/
def MaxLatin1 : Nat := 0xFF

/-- Go `unicode.Range16`: the code points from `lo` to `hi` in steps of `stride`. -/
structure Range16 where
  lo : Nat
  hi : Nat
  stride : Nat

/-- Go `unicode.White_Space.R16`. -/
def White_Space_R16 : List Range16 :=
  [⟨0x0009, 0x000d, 1⟩, ⟨0x0020, 0x0085, 101⟩, ⟨0x00a0, 0x1680, 5600⟩, ⟨0x2000, 0x200a, 1⟩,
   ⟨0x2028, 0x2029, 1⟩, ⟨0x202f, 0x205f, 48⟩, ⟨0x3000, 0x3000, 1⟩]

/-- Go `unicode.White_Space.LatinOffset`. -/
def White_Space_LatinOffset : Nat := 2

/-- Go `unicode.is16`, the linear search used for tables of at most 18 ranges. -/
def is16 : List Range16 → Nat → Bool
  | [], _ => false
  | rg :: rest, r =>
    if r < rg.lo then false
    else if r ≤ rg.hi then rg.stride = 1 || (r - rg.lo) % rg.stride = 0
    else is16 rest r

/-- Go `unicode.isExcludingLatin` for a table without 32-bit ranges. -/
def isExcludingLatin (r16 : List Range16) (off : Nat) (r : Rune) : Bool :=
  if r16.length > off ∧ r ≤ (r16.getLastD ⟨0, 0, 1⟩).hi then is16 (r16.drop off) r
  else false

/-- Go `unicode.IsSpace`. -/
def isSpace (r : Rune) : Bool :=
  if r ≤ MaxLatin1 then
    r = 0x09 || r = 0x0A || r = 0x0B || r = 0x0C || r = 0x0D || r = 0x20 || r = 0x85 || r = 0xA0
  else isExcludingLatin White_Space_R16 White_Space_LatinOffset r

/-! ## Standard library: `strings` -/

/-- The table `asciiSpace`. -/
def asciiSpace (c : Nat) : Nat :=
  if c = 0x09 ∨ c = 0x0A ∨ c = 0x0B ∨ c = 0x0C ∨ c = 0x0D ∨ c = 0x20 then 1 else 0

/-- The loop of `strings.indexFunc`, `for i, r := range s`, from byte index `i`.
Every iteration advances by the width of the decoded rune, so `len(s)`
iterations are enough (`indexFuncLoop_fuel`). -/
def indexFuncLoop (s : GoString) (f : Rune → Bool) (truth : Bool) : Nat → Nat → Int
  | 0, _ => -1
  | fuel + 1, i =>
    if i < s.length then
      let d := decodeRune (s.drop i)
      if f d.1 = truth then (i : Int)
      else indexFuncLoop s f truth fuel (i + d.2)
    else -1

/-- Go `strings.indexFunc`. -/
def indexFunc (s : GoString) (f : Rune → Bool) (truth : Bool) : Int :=
  indexFuncLoop s f truth s.length 0

/-- The loop of `strings.lastIndexFunc`, `for i := len(s); i > 0; { ... }`. -/
def lastIndexFuncLoop (s : GoString) (f : Rune → Bool) (truth : Bool) : Nat → Nat → Int
  | 0, _ => -1
  | fuel + 1, i =>
    if i > 0 then
      let d := decodeLastRune (slice s 0 i)
      let i := i - d.2
      if f d.1 = truth then (i : Int)
      else lastIndexFuncLoop s f truth fuel i
    else -1

/-- Go `strings.lastIndexFunc`. -/
def lastIndexFunc (s : GoString) (f : Rune → Bool) (truth : Bool) : Int :=
  lastIndexFuncLoop s f truth s.length s.length

/-- Go `strings.TrimLeftFunc`. -/
def TrimLeftFunc (s : GoString) (f : Rune → Bool) : GoString :=
  let i := indexFunc s f false
  if i = -1 then []
  else s.drop i.toNat

/-- Go `strings.TrimRightFunc`. -/
def TrimRightFunc (s : GoString) (f : Rune → Bool) : GoString :=
  let i := lastIndexFunc s f false
  let i : Int :=
    if i ≥ 0 ∧ byteAt s i.toNat ≥ RuneSelf then
      i + (decodeRune (s.drop i.toNat)).2
    else i + 1
  slice s 0 i.toNat

/-- Go `strings.TrimFunc`. -/
def TrimFunc (s : GoString) (f : Rune → Bool) : GoString :=
  TrimRightFunc (TrimLeftFunc s f) f

/-- The second loop of `strings.TrimSpace`, `for ; stop > start; stop--`. -/
def trimSpaceStop (s : GoString) (start : Nat) : Nat → GoString
  | 0 => slice s start 0
  | stop + 1 =>
    if stop + 1 > start then
      let c := byteAt s stop
      if c ≥ RuneSelf then TrimRightFunc (slice s start (stop + 1)) isSpace
      else if asciiSpace c = 0 then slice s start (stop + 1)
      else trimSpaceStop s start stop
    else slice s start (stop + 1)

/-- The first loop of `strings.TrimSpace`, `for ; start < len(s); start++`,
with `n = len(s) - start` bytes left to look at. -/
def trimSpaceStart (s : GoString) : Nat → Nat → GoString
  | 0, start => trimSpaceStop s start s.length
  | n + 1, start =>
    let c := byteAt s start
    if c ≥ RuneSelf then TrimFunc (s.drop start) isSpace
    else if asciiSpace c = 0 then trimSpaceStop s start s.length
    else trimSpaceStart s n (start + 1)

/-- Go `strings.TrimSpace`. -/
def TrimSpace (s : GoString) : GoString := trimSpaceStart s s.length 0

/-! ## The template: `main.stpl.go` and the helpers of `main_test.stpl.go` -/

/-- The path `filepath.Join(dir, "<%= &self.package_name %>.txt")`. -/
def inputPath (env : Env) (dir : String) : String :=
  env.join dir (env.packageName ++ ".txt")

/-- Go `func readData(dir string) string`. -/
def readData (env : Env) (dir : String) : Go GoString := do
  emit (Event.readFile (inputPath env dir))
  match env.readFile (inputPath env dir) with
  | Except.error err => goPanic (PanicValue.err err)
  | Except.ok contents => return TrimSpace contents

/-- Go `func parseContents(contents string) *Input`: `panic("todo")` followed by
`return &Input{}`. A `*Input` is `some` record, or `none` for `nil`. -/
def parseContents (_contents : GoString) : Go (Option Input) := do
  emit (Event.enter "parseContents")
  let _ ← (goPanic (PanicValue.str "todo") : Go Unit)
  return some Input.mk

/-- Go `func (i Input) part1() int`. -/
def Input.part1 (_i : Input) : Go Int := do
  emit (Event.enter "part1")
  let _ ← (goPanic (PanicValue.str "todo") : Go Unit)
  return 0

/-- Go `func (i Input) part2() int`. -/
def Input.part2 (_i : Input) : Go Int := do
  emit (Event.enter "part2")
  let _ ← (goPanic (PanicValue.str "todo") : Go Unit)
  return 0

/-- Dereferencing a `*Input` for a call of a method with a value receiver; on
`nil` the runtime panics. -/
def deref (p : Option Input) : Go Input :=
  match p with
  | some i => pure i
  | none => goPanic (PanicValue.runtime "invalid memory address or nil pointer dereference")

/-- The call `data.part1()` on a `*Input`. -/
def callPart1 (data : Option Input) : Go Int := do
  let i ← deref data
  i.part1

/-- The call `data.part2()` on a `*Input`. -/
def callPart2 (data : Option Input) : Go Int := do
  let i ← deref data
  i.part2

/-- Go `fmt.Printf(format, v)` for the two formats of `main`, `label` being the text
before `%v`. -/
def printfLine (label : String) (v : Int) : Go Unit :=
  emit (Event.print (label ++ toString v ++ "\n"))

/-- Go `func main()`. -/
def main (env : Env) : Go Unit := do
  let contents ← readData env "./data"
  let data ← parseContents contents
  let r1 ← callPart1 data
  printfLine "Part 1: " r1
  let r2 ← callPart2 data
  printfLine "Part 2: " r2

/-- Go `func exampleData() *Input` of the test file. -/
def exampleData : Go (Option Input) := do
  return some Input.mk

/-! ## Notions used in the statements -/

/-- The UTF-8 encodings of the 25 code points with the Unicode property
White_Space: U+0009 to U+000D, U+0020, U+0085, U+00A0, U+1680, U+2000 to U+200A,
U+2028, U+2029, U+202F, U+205F and U+3000. -/
def whiteSpaceEncodings : List GoString :=
  [[0x09], [0x0A], [0x0B], [0x0C], [0x0D], [0x20], [0xC2, 0x85], [0xC2, 0xA0],
   [0xE1, 0x9A, 0x80], [0xE2, 0x80, 0x80], [0xE2, 0x80, 0x81], [0xE2, 0x80, 0x82],
   [0xE2, 0x80, 0x83], [0xE2, 0x80, 0x84], [0xE2, 0x80, 0x85], [0xE2, 0x80, 0x86],
   [0xE2, 0x80, 0x87], [0xE2, 0x80, 0x88], [0xE2, 0x80, 0x89], [0xE2, 0x80, 0x8A],
   [0xE2, 0x80, 0xA8], [0xE2, 0x80, 0xA9], [0xE2, 0x80, 0xAF], [0xE2, 0x81, 0x9F],
   [0xE3, 0x80, 0x80]]

/-- The string consists only of white space characters: it is a concatenation of
encodings of white space characters (the empty string included). -/
def WhiteSpaceOnly (s : GoString) : Prop :=
  ∃ es : List GoString, (∀ e, e ∈ es → e ∈ whiteSpaceEncodings) ∧ s = es.flatten

/-- The lines printed in a trace. -/
def printed : List Event → List String
  | [] => []
  | Event.print l :: t => l :: printed t
  | _ :: t => printed t

/-- The paths of the file reads attempted in a trace. -/
def fileReads : List Event → List String
  | [] => []
  | Event.readFile p :: t => p :: fileReads t
  | _ :: t => fileReads t

/-- The functions of the template entered in a trace. -/
def entered : List Event → List String
  | [] => []
  | Event.enter f :: t => f :: entered t
  | _ :: t => entered t

/-- A file system with one file, `./data/day01.txt`, holding `contents`; paths are
joined with a slash. -/
def oneFile (contents : GoString) : Env :=
  Env.mk "day01" (fun d f => d ++ "/" ++ f)
    (fun p => if p = "./data/day01.txt" then Except.ok contents
      else Except.error (PathError.mk "open" p "no such file or directory"))

/-- A file system without any file. -/
def noFile : Env :=
  Env.mk "day01" (fun d f => d ++ "/" ++ f)
    (fun p => Except.error (PathError.mk "open" p "no such file or directory"))

/-- A file system with the input file of `oneFile` and a second, unrelated file. -/
def twoFiles (contents other : GoString) : Env :=
  Env.mk "day01" (fun d f => d ++ "/" ++ f)
    (fun p => if p = "./data/day01.txt" then Except.ok contents
      else if p = "./data/other.txt" then Except.ok other
      else Except.error (PathError.mk "open" p "no such file or directory"))

/-! ## The same notions in terms of the decoder, as the proofs use them -/

/-- The loop behind `allSpaces`; running out of fuel on a non-empty rest answers
`false`. -/
def allSpacesLoop : Nat → GoString → Bool
  | 0, s => s.isEmpty
  | fuel + 1, s =>
    if s.isEmpty then true
    else isSpace (decodeRune s).1 && allSpacesLoop fuel (s.drop (decodeRune s).2)

/-- The string consists only of white space characters: decoded rune by rune
from the left, as `for _, r := range s` does, every rune satisfies
`unicode.IsSpace`. -/
def allSpaces (s : GoString) : Bool := allSpacesLoop s.length s

/-- The string starts with a white space character. -/
def startsWithSpace (s : GoString) : Bool := isSpace (decodeRune s).1

/-- The string ends with a white space character. -/
def endsWithSpace (s : GoString) : Bool := isSpace (decodeLastRune s).1

/-- The string `e` is the UTF-8 encoding of exactly one white space character:
it decodes to a rune that satisfies `unicode.IsSpace` and that takes up all of
`e`. -/
def IsSpaceChar (e : GoString) : Prop :=
  isSpace (decodeRune e).1 = true ∧ (decodeRune e).2 = e.length

/-- The outcome of trimming `s` is `r`: `r` is the slice `s[a:m]`, what is cut off
in front and behind is all white space, and `r` neither starts nor ends with a
white space character. -/
def TrimResult (s r : GoString) : Prop :=
  ∃ a m, a ≤ m ∧ m ≤ s.length ∧ r = slice s a m ∧
    allSpaces (s.take a) = true ∧ allSpaces (s.drop m) = true ∧
    startsWithSpace r = false ∧ endsWithSpace r = false

/-! ## Auxiliary definitions for the proofs about decoding -/

/-- The body of `decodeRune` as a function of the length and the first four bytes. -/
def decodeCore (n b0 b1 b2 b3 : Nat) : Rune × Nat :=
  if n < 1 then (RuneError, 0)
  else
    let x := first b0
    if x ≥ as then
      let mask := 0xFFFFFFFF * (((x <<< 31) % 2 ^ 32) >>> 31)
      ((b0 &&& (0xFFFFFFFF ^^^ mask)) ||| (RuneError &&& mask), 1)
    else
      let sz := x &&& 7
      let accept := acceptRanges (x >>> 4)
      if n < sz then (RuneError, 1)
      else
        if b1 < accept.lo ∨ accept.hi < b1 then (RuneError, 1)
        else if sz ≤ 2 then (((b0 &&& mask2) <<< 6) ||| (b1 &&& maskx), 2)
        else
          if b2 < locb ∨ hicb < b2 then (RuneError, 1)
          else if sz ≤ 3 then
            (((b0 &&& mask3) <<< 12) ||| ((b1 &&& maskx) <<< 6) ||| (b2 &&& maskx), 3)
          else
            if b3 < locb ∨ hicb < b3 then (RuneError, 1)
            else
              (((b0 &&& mask4) <<< 18) ||| ((b1 &&& maskx) <<< 12) ||| ((b2 &&& maskx) <<< 6)
                ||| (b3 &&& maskx), 4)

/-- Lower bound of the second byte for a lead byte `b0`. -/
def lo1 (b0 : Nat) : Nat := if b0 = 0xE0 then 0xA0 else if b0 = 0xF0 then 0x90 else 0x80

/-- Upper bound of the second byte for a lead byte `b0`. -/
def hi1 (b0 : Nat) : Nat := if b0 = 0xED then 0x9F else if b0 = 0xF4 then 0x8F else 0xBF

/-- Arithmetic reading of `decodeCore`. -/
def decodeArith (n b0 b1 b2 b3 : Nat) : Rune × Nat :=
  if n < 1 then (RuneError, 0)
  else if b0 < 0x80 then (b0, 1)
  else if b0 < 0xC2 ∨ 0xF4 < b0 then (RuneError, 1)
  else if b0 < 0xE0 then
    if n < 2 ∨ b1 < 0x80 ∨ 0xBF < b1 then (RuneError, 1)
    else ((b0 % 32) * 64 + b1 % 64, 2)
  else if b0 < 0xF0 then
    if n < 3 ∨ b1 < lo1 b0 ∨ hi1 b0 < b1 ∨ b2 < 0x80 ∨ 0xBF < b2 then (RuneError, 1)
    else ((b0 % 16) * 4096 + (b1 % 64) * 64 + b2 % 64, 3)
  else
    if n < 4 ∨ b1 < lo1 b0 ∨ hi1 b0 < b1 ∨ b2 < 0x80 ∨ 0xBF < b2 ∨ b3 < 0x80 ∨ 0xBF < b3 then
      (RuneError, 1)
    else ((b0 % 8) * 262144 + (b1 % 64) * 4096 + (b2 % 64) * 64 + b3 % 64, 4)

/-- A rune is valid when it is ASCII or wider than one byte. -/
def ValidAt (s : GoString) : Prop :=
  2 ≤ (decodeRune s).2 ∨ (s ≠ [] ∧ byteAt s 0 < 0x80)

/-! ## Theorems -/

theorem decodeRune_eq_core (s : GoString) :
    decodeRune s = decodeCore s.length (byteAt s 0) (byteAt s 1) (byteAt s 2) (byteAt s 3) := rfl

theorem or_low (i z c : Nat) (hc : c < 2 ^ i) (hz : 2 ^ i ∣ z) : z ||| c = z + c := by
  obtain ⟨k, rfl⟩ := hz
  exact (Nat.mul_add_lt_is_or hc k).symm

theorem and_maskx (c : Nat) : c &&& maskx = c % 64 := Nat.and_pow_two_sub_one_eq_mod c 6

theorem and_mask2 (c : Nat) : c &&& mask2 = c % 32 := Nat.and_pow_two_sub_one_eq_mod c 5

theorem and_mask3 (c : Nat) : c &&& mask3 = c % 16 := Nat.and_pow_two_sub_one_eq_mod c 4

theorem and_mask4 (c : Nat) : c &&& mask4 = c % 8 := Nat.and_pow_two_sub_one_eq_mod c 3

theorem bits2 (b0 b1 : Nat) :
    ((b0 &&& mask2) <<< 6) ||| (b1 &&& maskx) = (b0 % 32) * 64 + b1 % 64 := by
  rw [and_maskx, and_mask2, Nat.shiftLeft_eq]
  exact or_low 6 _ _ (Nat.mod_lt _ (by decide)) (by norm_num)

theorem bits3 (b0 b1 b2 : Nat) :
    ((b0 &&& mask3) <<< 12) ||| ((b1 &&& maskx) <<< 6) ||| (b2 &&& maskx)
      = (b0 % 16) * 4096 + (b1 % 64) * 64 + b2 % 64 := by
  rw [and_maskx, and_maskx, and_mask3, Nat.shiftLeft_eq, Nat.shiftLeft_eq]
  have h1 : b1 % 64 < 64 := Nat.mod_lt _ (by decide)
  have h2 : b2 % 64 < 64 := Nat.mod_lt _ (by decide)
  have e1 : (b0 % 16) * 2 ^ 12 ||| (b1 % 64) * 2 ^ 6 = (b0 % 16) * 2 ^ 12 + (b1 % 64) * 2 ^ 6 :=
    or_low 12 _ _ (by norm_num; omega) (by norm_num)
  rw [e1]
  have e2 := or_low 6 ((b0 % 16) * 2 ^ 12 + (b1 % 64) * 2 ^ 6) (b2 % 64) (by norm_num; omega)
    (by norm_num; omega)
  rw [e2]
  norm_num

theorem bits4 (b0 b1 b2 b3 : Nat) :
    ((b0 &&& mask4) <<< 18) ||| ((b1 &&& maskx) <<< 12) ||| ((b2 &&& maskx) <<< 6)
        ||| (b3 &&& maskx)
      = (b0 % 8) * 262144 + (b1 % 64) * 4096 + (b2 % 64) * 64 + b3 % 64 := by
  rw [and_maskx, and_maskx, and_maskx, and_mask4, Nat.shiftLeft_eq, Nat.shiftLeft_eq,
    Nat.shiftLeft_eq]
  have h1 : b1 % 64 < 64 := Nat.mod_lt _ (by decide)
  have h2 : b2 % 64 < 64 := Nat.mod_lt _ (by decide)
  have h3 : b3 % 64 < 64 := Nat.mod_lt _ (by decide)
  have e1 : (b0 % 8) * 2 ^ 18 ||| (b1 % 64) * 2 ^ 12 = (b0 % 8) * 2 ^ 18 + (b1 % 64) * 2 ^ 12 :=
    or_low 18 _ _ (by norm_num; omega) (by norm_num)
  rw [e1]
  have e2 := or_low 12 ((b0 % 8) * 2 ^ 18 + (b1 % 64) * 2 ^ 12) ((b2 % 64) * 2 ^ 6)
    (by norm_num; omega) (by norm_num; omega)
  rw [e2]
  have e3 := or_low 6 ((b0 % 8) * 2 ^ 18 + (b1 % 64) * 2 ^ 12 + (b2 % 64) * 2 ^ 6) (b3 % 64)
    (by norm_num; omega) (by norm_num; omega)
  rw [e3]
  norm_num

theorem first_as (b : Nat) (h : b < 0x80) : first b = as := by
  simp [first, h]

theorem first_xx (b : Nat) (h1 : 0x80 ≤ b) (h2 : b < 0xC2 ∨ 0xF4 < b) : first b = xx := by
  unfold first
  split_ifs <;> first | rfl | omega

theorem first_s1 (b : Nat) (h1 : 0xC2 ≤ b) (h2 : b < 0xE0) : first b = s1 := by
  unfold first
  split_ifs <;> first | rfl | omega

theorem first_s3 (b : Nat) (h1 : 0xE1 ≤ b) (h2 : b < 0xF0) (h3 : b ≠ 0xED) : first b = s3 := by
  unfold first
  split_ifs <;> first | rfl | omega

theorem first_s6 (b : Nat) (h1 : 0xF1 ≤ b) (h2 : b < 0xF4) : first b = s6 := by
  unfold first
  split_ifs <;> first | rfl | omega

theorem and_ones32 (b : Nat) (h : b < 2 ^ 32) : b &&& 4294967295 = b := by
  have := Nat.and_pow_two_sub_one_eq_mod b 32
  simp only [Nat.reducePow, Nat.reduceSub] at this
  rw [this]
  exact Nat.mod_eq_of_lt h

theorem and7_s1 : (0x02 &&& 7 : Nat) = 2 := by decide

theorem and7_s2 : (0x13 &&& 7 : Nat) = 3 := by decide

theorem and7_s3 : (0x03 &&& 7 : Nat) = 3 := by decide

theorem and7_s4 : (0x23 &&& 7 : Nat) = 3 := by decide

theorem and7_s5 : (0x34 &&& 7 : Nat) = 4 := by decide

theorem and7_s6 : (0x04 &&& 7 : Nat) = 4 := by decide

theorem and7_s7 : (0x44 &&& 7 : Nat) = 4 := by decide

theorem and_err : (65533 &&& 4294967295 : Nat) = 65533 := by decide

theorem decodeCore_eq_arith (n b0 b1 b2 b3 : Nat) :
    decodeCore n b0 b1 b2 b3 = decodeArith n b0 b1 b2 b3 := by
  unfold decodeCore decodeArith
  by_cases hn : n < 1
  · simp [hn]
  simp only [hn, if_false, bits2, bits3, bits4]
  by_cases c0 : b0 < 0x80
  · simp [c0, first_as b0 c0, as, RuneError]
    exact and_ones32 b0 (by norm_num; omega)
  by_cases c1 : b0 < 0xC2 ∨ 0xF4 < b0
  · simp [c0, c1, first_xx b0 (by omega) c1, as, xx, RuneError, and_err]
  by_cases c2 : b0 < 0xE0
  · simp [c0, c1, c2, first_s1 b0 (by omega) c2, as, s1, acceptRanges, locb, hicb, and7_s1]
    split_ifs <;> first | rfl | omega
  by_cases c3 : b0 < 0xF0
  · by_cases d0 : b0 = 0xE0
    · subst d0
      simp [first, as, s2, acceptRanges, locb, hicb, and7_s2, lo1, hi1]
      split_ifs <;> first | rfl | omega
    by_cases d1 : b0 = 0xED
    · subst d1
      simp [first, as, s4, acceptRanges, locb, hicb, and7_s4, lo1, hi1]
      split_ifs <;> first | rfl | omega
    simp [c0, c1, c2, c3, first_s3 b0 (by omega) c3 d1, as, s3, acceptRanges, locb, hicb,
      and7_s3, lo1, hi1, d0, d1]
    have e1 : ¬ b0 = 240 := by omega
    have e2 : ¬ b0 = 244 := by omega
    simp [e1, e2]
    split_ifs <;> first | rfl | omega
  by_cases d0 : b0 = 0xF0
  · subst d0
    simp [first, as, s5, acceptRanges, locb, hicb, and7_s5, lo1, hi1]
    split_ifs <;> first | rfl | omega
  by_cases d1 : b0 = 0xF4
  · subst d1
    simp [first, as, s7, acceptRanges, locb, hicb, and7_s7, lo1, hi1]
    split_ifs <;> first | rfl | omega
  have e1 : ¬ b0 = 224 := by omega
  have e2 : ¬ b0 = 237 := by omega
  simp [c0, c1, c2, c3, first_s6 b0 (by omega) (by omega), as, s6, acceptRanges, locb, hicb,
    and7_s6, lo1, hi1, d0, d1, e1, e2]
  split_ifs <;> first | rfl | omega

theorem decodeRune_arith (s : GoString) :
    decodeRune s = decodeArith s.length (byteAt s 0) (byteAt s 1) (byteAt s 2) (byteAt s 3) := by
  rw [decodeRune_eq_core, decodeCore_eq_arith]

theorem byteAt_lt (s : GoString) (i : Nat) : byteAt s i < 256 := (s.getD i 0).isLt

theorem byteAt_cons_zero (b : Byte) (q : GoString) : byteAt (b :: q) 0 = b.val := rfl

theorem byteAt_cons_succ (b : Byte) (q : GoString) (i : Nat) :
    byteAt (b :: q) (i + 1) = byteAt q i := by
  simp [byteAt]

theorem decodeRune_nil : decodeRune [] = (RuneError, 0) := rfl

theorem isSpace_RuneError : isSpace RuneError = false := by decide

/-- A decoded rune is at least one byte wide and never wider than the string. -/
theorem decodeRune_size (s : GoString) (h : s ≠ []) :
    1 ≤ (decodeRune s).2 ∧ (decodeRune s).2 ≤ s.length := by
  have hn : 1 ≤ s.length := by
    cases s with
    | nil => exact absurd rfl h
    | cons a t => simp
  rw [decodeRune_arith]
  unfold decodeArith
  split_ifs <;> simp <;> omega

theorem decodeRune_ascii (s : GoString) (h : s ≠ []) (hb : byteAt s 0 < 0x80) :
    decodeRune s = (byteAt s 0, 1) := by
  have hn : ¬ s.length < 1 := by
    cases s with
    | nil => exact absurd rfl h
    | cons a t => simp
  rw [decodeRune_arith]
  unfold decodeArith
  simp [hn, hb]

theorem lo1_ge (b : Nat) : 0x80 ≤ lo1 b := by
  unfold lo1
  split_ifs <;> omega

theorem hi1_le (b : Nat) : hi1 b ≤ 0xBF := by
  unfold hi1
  split_ifs <;> omega

/-- A non-ASCII byte that is not followed by a continuation byte decodes as an
invalid sequence of width one. -/
theorem decodeRune_lone (b : Byte) (q : GoString) (hb : 0x80 ≤ b.val)
    (hq : q = [] ∨ byteAt q 0 < 0x80 ∨ 0xBF < byteAt q 0) :
    decodeRune (b :: q) = (RuneError, 1) := by
  rw [decodeRune_arith]
  simp only [byteAt_cons_zero, byteAt_cons_succ, List.length_cons]
  have l1 := lo1_ge b.val
  have l2 := hi1_le b.val
  unfold decodeArith
  rcases hq with rfl | hq
  · simp only [List.length_nil]
    split_ifs <;> first | rfl | omega
  · split_ifs <;> first | rfl | omega

/-- A string whose first rune is a space is not empty and does not start with a
continuation byte. -/
theorem space_first_byte (q : GoString) (h : isSpace (decodeRune q).1 = true) :
    q ≠ [] ∧ (byteAt q 0 < 0x80 ∨ 0xBF < byteAt q 0) := by
  constructor
  · rintro rfl
    have h1 : isSpace RuneError = true := h
    rw [isSpace_RuneError] at h1
    exact Bool.noConfusion h1
  · by_contra hc
    rw [decodeRune_arith] at h
    unfold decodeArith at h
    split_ifs at h <;> first | omega | simp [isSpace_RuneError] at h

/-- A multi-byte rune starts with a lead byte. -/
theorem decodeRune_wide_lead (s : GoString) (h : 2 ≤ (decodeRune s).2) : 0xC2 ≤ byteAt s 0 := by
  rw [decodeRune_arith] at h
  unfold decodeArith at h
  split_ifs at h <;> omega

/-- A rune that is a space is either ASCII or a valid multi-byte sequence. -/
theorem space_valid (e : GoString) (h : isSpace (decodeRune e).1 = true) :
    2 ≤ (decodeRune e).2 ∨ (e ≠ [] ∧ byteAt e 0 < 0x80) := by
  have h0 := (space_first_byte e h).1
  by_cases hb : byteAt e 0 < 0x80
  · exact Or.inr ⟨h0, hb⟩
  · left
    rw [decodeRune_arith] at h ⊢
    unfold decodeArith at h ⊢
    split_ifs at h ⊢ <;> first | omega | simp [isSpace_RuneError] at h

theorem byteAt_append_left (e q : GoString) (i : Nat) (h : i < e.length) :
    byteAt (e ++ q) i = byteAt e i := by
  unfold byteAt
  rw [List.getD_append _ _ _ _ h]

/-- The arithmetic decoder reads only the bytes of the rune it returns. -/
theorem decodeArith_congr (n m b0 b1 b2 b3 c1 c2 c3 k : Nat)
    (hk : (decodeArith n b0 b1 b2 b3).2 = k) (h2 : 2 ≤ k) (hm : k ≤ m)
    (e1 : c1 = b1) (e2 : 3 ≤ k → c2 = b2) (e3 : 4 ≤ k → c3 = b3) :
    decodeArith m b0 c1 c2 c3 = decodeArith n b0 b1 b2 b3 := by
  subst e1
  unfold decodeArith at hk ⊢
  by_cases hn1 : n < 1
  · simp [hn1] at hk
    omega
  have hm1 : ¬ m < 1 := by omega
  simp only [hn1, hm1, if_false] at hk ⊢
  by_cases k0 : b0 < 0x80
  · simp [k0] at hk
    omega
  by_cases k1 : b0 < 0xC2 ∨ 0xF4 < b0
  · simp [k0, k1] at hk
    omega
  simp only [k0, k1, if_false] at hk ⊢
  by_cases k2 : b0 < 0xE0
  · simp only [k2, if_true] at hk ⊢
    by_cases kk : n < 2 ∨ c1 < 0x80 ∨ 0xBF < c1
    · simp [kk] at hk
      omega
    · have k' : ¬ (m < 2 ∨ c1 < 0x80 ∨ 0xBF < c1) := by omega
      simp only [kk, k', if_false]
  simp only [k2, if_false] at hk ⊢
  by_cases k3 : b0 < 0xF0
  · simp only [k3, if_true] at hk ⊢
    by_cases kk : n < 3 ∨ c1 < lo1 b0 ∨ hi1 b0 < c1 ∨ b2 < 0x80 ∨ 0xBF < b2
    · simp [kk] at hk
      omega
    · simp only [kk, if_false] at hk
      have hc := e2 (by omega)
      subst hc
      have k' : ¬ (m < 3 ∨ c1 < lo1 b0 ∨ hi1 b0 < c1 ∨ c2 < 0x80 ∨ 0xBF < c2) := by omega
      simp only [kk, k', if_false]
  simp only [k3, if_false] at hk ⊢
  by_cases kk : n < 4 ∨ c1 < lo1 b0 ∨ hi1 b0 < c1 ∨ b2 < 0x80 ∨ 0xBF < b2 ∨ b3 < 0x80 ∨ 0xBF < b3
  · simp [kk] at hk
    omega
  · simp only [kk, if_false] at hk
    have hc := e2 (by omega)
    have hd := e3 (by omega)
    subst hc hd
    have k' : ¬ (m < 4 ∨ c1 < lo1 b0 ∨ hi1 b0 < c1 ∨ c2 < 0x80 ∨ 0xBF < c2 ∨ c3 < 0x80
        ∨ 0xBF < c3) := by omega
    simp only [kk, k', if_false]

/-- Decoding reads only the bytes of the rune it returns: a string that agrees
with `s` on the bytes of the valid first rune of `s` starts with the same rune. -/
theorem decodeRune_congr (s t : GoString) (hv : ValidAt s)
    (hlen : (decodeRune s).2 ≤ t.length)
    (hb : ∀ i, i < (decodeRune s).2 → byteAt t i = byteAt s i) :
    decodeRune t = decodeRune s := by
  by_cases ha : s ≠ [] ∧ byteAt s 0 < 0x80
  · obtain ⟨h0, hb0⟩ := ha
    have hs := decodeRune_ascii s h0 hb0
    rw [hs] at hlen hb ⊢
    have hb1 := hb 0 (by simp)
    have ht : t ≠ [] := by
      rintro rfl
      simp at hlen
    rw [decodeRune_ascii t ht (by rw [hb1]; exact hb0), hb1]
  · have h2 : 2 ≤ (decodeRune s).2 := by
      rcases hv with h | h
      · exact h
      · exact absurd h ha
    have hb0 := hb 0 (by omega)
    have hb1 := hb 1 (by omega)
    rw [decodeRune_arith t, hb0]
    rw [decodeRune_arith s] at h2 hlen hb ⊢
    exact decodeArith_congr _ _ _ _ _ _ _ _ _ _ rfl h2 hlen hb1 (fun h => hb 2 (by omega))
      (fun h => hb 3 (by omega))

theorem space_validAt (e : GoString) (h : isSpace (decodeRune e).1 = true) : ValidAt e :=
  space_valid e h

theorem decodeRune_append_valid (e q : GoString) (h : ValidAt e) :
    decodeRune (e ++ q) = decodeRune e := by
  have h0 : e ≠ [] := by
    rintro rfl
    rcases h with h | h
    · simp [decodeRune_nil] at h
    · exact h.1 rfl
  have hs := decodeRune_size e h0
  apply decodeRune_congr e (e ++ q) h
  · simp
    omega
  · intro i hi
    exact byteAt_append_left e q i (by omega)

theorem byteAt_take (s : GoString) (k i : Nat) (h : i < k) : byteAt (s.take k) i = byteAt s i := by
  unfold byteAt
  simp [List.getD_eq_getElem?_getD, List.getElem?_take, h]

theorem decodeRune_take_valid (s : GoString) (k : Nat) (h : ValidAt s)
    (hk : (decodeRune s).2 ≤ k) : decodeRune (s.take k) = decodeRune s := by
  have h0 : s ≠ [] := by
    rintro rfl
    rcases h with h | h
    · simp [decodeRune_nil] at h
    · exact h.1 rfl
  have hs := decodeRune_size s h0
  apply decodeRune_congr s (s.take k) h
  · simp
    omega
  · intro i hi
    exact byteAt_take s k i (by omega)

theorem backScan_le (s : GoString) (lim : Int) (n : Nat) (st : Int) :
    backScan s lim n st ≤ st := by
  induction n generalizing st with
  | zero => simp [backScan]
  | succ k ih =>
    unfold backScan
    split_ifs
    · exact le_refl _
    · have := ih (st - 1)
      omega
    · exact le_refl _

theorem byteAt_drop (s : GoString) (i j : Nat) : byteAt (s.drop i) j = byteAt s (i + j) := by
  unfold byteAt
  simp [List.getD_eq_getElem?_getD, List.getElem?_drop]

theorem slice_full (s : GoString) (i : Nat) : slice s i s.length = s.drop i := by
  simp [slice]

theorem slice_zero (s : GoString) (j : Nat) : slice s 0 j = s.take j := by
  simp [slice]

/-- What `decodeLastRune` returns on a non-empty string: a width between one and
the length, and either the invalid-sequence answer or the result of decoding
forwards the suffix of that width. -/
theorem decodeLastRune_spec (s : GoString) (h : s ≠ []) :
    1 ≤ (decodeLastRune s).2 ∧ (decodeLastRune s).2 ≤ s.length ∧
    (decodeLastRune s = (RuneError, 1) ∨
      decodeRune (s.drop (s.length - (decodeLastRune s).2)) = decodeLastRune s) := by
  have hl : 0 < s.length := List.length_pos.mpr h
  unfold decodeLastRune
  have hne : ¬ ((s.length : Int) = 0) := by omega
  simp only [hne, if_false]
  by_cases hr : byteAt s ((s.length : Int) - 1).toNat < RuneSelf
  · simp only [hr, if_true]
    refine ⟨le_refl _, hl, Or.inr ?_⟩
    have e : ((s.length : Int) - 1).toNat = s.length - 1 := by omega
    rw [e] at hr ⊢
    have hd : s.drop (s.length - 1) ≠ [] := by
      intro hc
      have := congrArg List.length hc
      simp at this
      omega
    have hb : byteAt (s.drop (s.length - 1)) 0 = byteAt s (s.length - 1) := by
      rw [byteAt_drop]
      rfl
    rw [decodeRune_ascii _ hd (by rw [hb]; exact hr), hb]
  · simp only [hr, if_false]
    generalize hlim : (if (s.length : Int) - (UTFMax : Int) < 0 then (0 : Int)
      else (s.length : Int) - (UTFMax : Int)) = lim
    have hb := backScan_le s lim UTFMax ((s.length : Int) - 1 - 1)
    generalize backScan s lim UTFMax ((s.length : Int) - 1 - 1) = bs at hb ⊢
    generalize hst : (if bs < 0 then (0 : Int) else bs) = st
    have hst0 : 0 ≤ st := by
      rw [← hst]
      split_ifs <;> omega
    have hst1 : st ≤ (s.length : Int) - 1 := by
      rw [← hst]
      split_ifs <;> omega
    rw [Int.toNat_ofNat, slice_full]
    by_cases hk : st + ((decodeRune (s.drop st.toNat)).2 : Int) ≠ (s.length : Int)
    · rw [if_pos hk]
      exact ⟨le_refl _, hl, Or.inl rfl⟩
    · rw [if_neg hk]
      have hk2 : st + ((decodeRune (s.drop st.toNat)).2 : Int) = (s.length : Int) := by
        by_contra hc
        exact hk hc
      refine ⟨by omega, by omega, Or.inr ?_⟩
      have e : s.length - (decodeRune (s.drop st.toNat)).2 = st.toNat := by omega
      rw [e]

theorem allSpacesLoop_nil (n : Nat) : allSpacesLoop n [] = true := by
  cases n <;> rfl

theorem allSpacesLoop_fuel (n m : Nat) (s : GoString) (hn : s.length ≤ n) (hm : s.length ≤ m) :
    allSpacesLoop n s = allSpacesLoop m s := by
  induction n generalizing s m with
  | zero =>
    have : s = [] := List.length_eq_zero.mp (by omega)
    subst this
    rw [allSpacesLoop_nil, allSpacesLoop_nil]
  | succ k ih =>
    cases m with
    | zero =>
      have : s = [] := List.length_eq_zero.mp (by omega)
      subst this
      rw [allSpacesLoop_nil, allSpacesLoop_nil]
    | succ j =>
      cases s with
      | nil => rfl
      | cons a t =>
        have hs := decodeRune_size (a :: t) (by simp)
        simp only [allSpacesLoop, List.isEmpty_cons, Bool.false_eq_true, if_false]
        have hl : ((a :: t).drop (decodeRune (a :: t)).2).length ≤ k := by
          simp only [List.length_drop, List.length_cons] at hn ⊢
          omega
        have hl2 : ((a :: t).drop (decodeRune (a :: t)).2).length ≤ j := by
          simp only [List.length_drop, List.length_cons] at hm ⊢
          omega
        rw [ih j _ hl hl2]

theorem allSpaces_nil : allSpaces [] = true := rfl

/-- A non-empty string is all white space exactly when its first rune is a space
and the rest after that rune is all white space. -/
theorem allSpaces_step (s : GoString) (h : s ≠ []) :
    allSpaces s = true ↔
      isSpace (decodeRune s).1 = true ∧ allSpaces (s.drop (decodeRune s).2) = true := by
  have hs := decodeRune_size s h
  unfold allSpaces
  cases s with
  | nil => exact absurd rfl h
  | cons a t =>
    simp only [List.length_cons, allSpacesLoop, List.isEmpty_cons, Bool.false_eq_true, if_false,
      Bool.and_eq_true]
    have hl : ((a :: t).drop (decodeRune (a :: t)).2).length ≤ t.length := by
      simp only [List.length_drop, List.length_cons] at hs ⊢
      omega
    rw [allSpacesLoop_fuel t.length _ _ hl (le_refl _)]

theorem allSpaces_append (a b : GoString) (ha : allSpaces a = true) (hb : allSpaces b = true) :
    allSpaces (a ++ b) = true := by
  suffices H : ∀ n (a : GoString), a.length = n → allSpaces a = true →
      allSpaces (a ++ b) = true from H a.length a rfl ha
  intro n
  induction n using Nat.strong_induction_on with
  | _ n ih =>
    intro a hn ha
    by_cases h0 : a = []
    · subst h0
      simpa using hb
    · have hs := decodeRune_size a h0
      obtain ⟨h1, h2⟩ := (allSpaces_step a h0).mp ha
      have hv := space_validAt a h1
      have hd := decodeRune_append_valid a b hv
      have h0' : a ++ b ≠ [] := by simp [h0]
      rw [allSpaces_step _ h0', hd]
      refine ⟨h1, ?_⟩
      rw [List.drop_append_of_le_length hs.2]
      apply ih (a.drop (decodeRune a).2).length _ _ rfl h2
      simp only [List.length_drop]
      omega

theorem isSpace_ascii (c : Nat) (hc : c < 0x80) : isSpace c = true ↔ asciiSpace c ≠ 0 := by
  unfold isSpace asciiSpace MaxLatin1
  have : c ≤ 0xFF := by omega
  simp only [this, if_true]
  simp
  unfold Rune
  constructor
  · intro h h1 h2 h3 h4 h5
    omega
  · intro h
    by_cases h1 : c = 9
    · omega
    by_cases h2 : c = 10
    · omega
    by_cases h3 : c = 11
    · omega
    by_cases h4 : c = 12
    · omega
    by_cases h5 : c = 13
    · omega
    have := h h1 h2 h3 h4 h5
    omega

/-- One ASCII byte in front: the string is all white space exactly when the byte
is a space of the `asciiSpace` table and the rest is all white space. -/
theorem allSpaces_cons_ascii (b : Byte) (q : GoString) (hb : b.val < 0x80) :
    allSpaces (b :: q) = true ↔ asciiSpace b.val ≠ 0 ∧ allSpaces q = true := by
  rw [allSpaces_step _ (by simp), decodeRune_ascii _ (by simp) (by simpa using hb)]
  simp only [byteAt_cons_zero, List.drop_succ_cons, List.drop_zero]
  rw [isSpace_ascii _ hb]

theorem slice_self (s : GoString) (i : Nat) : slice s i i = [] := by
  unfold slice
  apply List.drop_eq_nil_of_le
  simp

theorem slice_eq_take_drop (s : GoString) (i j : Nat) :
    slice s i j = (s.drop i).take (j - i) := List.drop_take j i s

theorem slice_append_drop (s : GoString) (i j : Nat) (hij : i ≤ j) (hj : j ≤ s.length) :
    slice s i j ++ s.drop j = s.drop i := by
  unfold slice
  have h : i ≤ (s.take j).length := by
    simp
    omega
  rw [← List.drop_append_of_le_length h, List.take_append_drop]

theorem slice_length (s : GoString) (i j : Nat) (hj : j ≤ s.length) :
    (slice s i j).length = j - i := by
  unfold slice
  simp
  omega

theorem slice_drop (s : GoString) (i j k : Nat) : (slice s i j).drop k = slice s (i + k) j := by
  unfold slice
  rw [List.drop_drop, Nat.add_comm]

theorem drop_drop_add (s : GoString) (i k : Nat) : (s.drop i).drop k = s.drop (i + k) := by
  rw [List.drop_drop, Nat.add_comm]

theorem drop_ne_nil (s : GoString) (i : Nat) (h : i < s.length) : s.drop i ≠ [] := by
  intro hc
  have := congrArg List.length hc
  simp at this
  omega

theorem startsWithSpace_nil : startsWithSpace [] = false := by decide

theorem endsWithSpace_nil : endsWithSpace [] = false := by decide

/-- What the loop of `indexFunc` finds when looking for the first rune that is not
a space: either nothing, and the rest is all white space, or the index of a rune
that is not a space after a stretch of white space. -/
theorem indexFuncLoop_spec (s : GoString) (fuel i : Nat) (hi : i ≤ s.length)
    (hf : s.length - i ≤ fuel) :
    (indexFuncLoop s isSpace false fuel i = -1 ∧ allSpaces (s.drop i) = true) ∨
    ∃ j : Nat, indexFuncLoop s isSpace false fuel i = (j : Int) ∧ i ≤ j ∧ j < s.length ∧
      allSpaces (slice s i j) = true ∧ startsWithSpace (s.drop j) = false := by
  induction fuel generalizing i with
  | zero =>
    left
    have e : i = s.length := by omega
    subst e
    simp [indexFuncLoop, allSpaces_nil]
  | succ k ih =>
    unfold indexFuncLoop
    by_cases hlt : i < s.length
    · simp only [hlt, if_true]
      have h0 := drop_ne_nil s i hlt
      have hs := decodeRune_size (s.drop i) h0
      simp only [List.length_drop] at hs
      by_cases hsp : isSpace (decodeRune (s.drop i)).1 = false
      · simp only [hsp, if_true]
        right
        exact ⟨i, rfl, le_refl _, hlt, by rw [slice_self]; exact allSpaces_nil, hsp⟩
      · simp only [hsp, if_false]
        have hsp' : isSpace (decodeRune (s.drop i)).1 = true := by
          cases hh : isSpace (decodeRune (s.drop i)).1
          · exact absurd hh hsp
          · rfl
        rcases ih (i + (decodeRune (s.drop i)).2) (by omega) (by omega) with ⟨h1, h2⟩ | ⟨j, h1, h2, h3, h4, h5⟩
        · left
          refine ⟨h1, ?_⟩
          rw [allSpaces_step _ h0]
          refine ⟨hsp', ?_⟩
          rw [drop_drop_add]
          exact h2
        · right
          refine ⟨j, h1, by omega, h3, ?_, h5⟩
          have hne : slice s i j ≠ [] := by
            intro hc
            have := congrArg List.length hc
            rw [slice_length s i j (by omega)] at this
            simp at this
            omega
          have hd : decodeRune (slice s i j) = decodeRune (s.drop i) := by
            rw [slice_eq_take_drop]
            exact decodeRune_take_valid _ _ (space_validAt _ hsp') (by omega)
          rw [allSpaces_step _ hne, hd]
          refine ⟨hsp', ?_⟩
          rw [slice_drop]
          exact h4
    · left
      simp only [hlt, if_false]
      have e : i = s.length := by omega
      subst e
      simp [allSpaces_nil]

/-- On a rest that is all white space the loop of `indexFunc` finds nothing. -/
theorem indexFuncLoop_allSpaces (s : GoString) (fuel i : Nat) (hi : i ≤ s.length)
    (h : allSpaces (s.drop i) = true) : indexFuncLoop s isSpace false fuel i = -1 := by
  induction fuel generalizing i with
  | zero => rfl
  | succ k ih =>
    unfold indexFuncLoop
    by_cases hlt : i < s.length
    · simp only [hlt, if_true]
      have h0 := drop_ne_nil s i hlt
      have hs := decodeRune_size (s.drop i) h0
      simp only [List.length_drop] at hs
      obtain ⟨h1, h2⟩ := (allSpaces_step _ h0).mp h
      rw [drop_drop_add] at h2
      simp only [h1, Bool.true_eq_false, if_false]
      exact ih _ (by omega) h2
    · simp only [hlt, if_false]

/-- Go `TrimLeftFunc(s, unicode.IsSpace)` drops a prefix that is all white space and
leaves a string that does not start with a space. -/
theorem TrimLeftFunc_spec (s : GoString) :
    ∃ a, a ≤ s.length ∧ TrimLeftFunc s isSpace = s.drop a ∧ allSpaces (s.take a) = true ∧
      startsWithSpace (s.drop a) = false := by
  unfold TrimLeftFunc indexFunc
  rcases indexFuncLoop_spec s s.length 0 (by omega) (by omega) with ⟨h1, h2⟩ | ⟨j, h1, _, h3, h4, h5⟩
  · refine ⟨s.length, le_refl _, ?_, ?_, ?_⟩
    · simp [h1]
    · simpa using h2
    · simp [startsWithSpace_nil]
  · refine ⟨j, by omega, ?_, ?_, h5⟩
    · rw [h1]
      have : ¬ ((j : Int) = -1) := by omega
      simp [this]
    · rw [slice_zero] at h4
      exact h4

theorem TrimLeftFunc_allSpaces (s : GoString) (h : allSpaces s = true) :
    TrimLeftFunc s isSpace = [] := by
  unfold TrimLeftFunc indexFunc
  rw [indexFuncLoop_allSpaces s s.length 0 (by omega) (by simpa using h)]
  simp

theorem TrimLeftFunc_fixed (s : GoString) (h : startsWithSpace s = false) :
    TrimLeftFunc s isSpace = s := by
  cases s with
  | nil => rfl
  | cons a t =>
    unfold TrimLeftFunc indexFunc
    simp only [List.length_cons, indexFuncLoop]
    unfold startsWithSpace at h
    simp [h]

theorem allSpaces_false_of_not (b : Bool) (h : ¬ b = false) : b = true := by
  cases b
  · exact absurd rfl h
  · rfl

/-- What the loop of `lastIndexFunc` finds when looking for the last rune that is
not a space, started at `i` with an all white space rest behind it: it stops at a
position `m` with only white space after it; either `m = 0` and nothing was found,
or the rune ending at `m` is not a space and its start is returned. -/
theorem lastIndexFuncLoop_spec (s : GoString) (fuel i : Nat) (hf : i ≤ fuel)
    (hi : i ≤ s.length) (hsp : allSpaces (s.drop i) = true) :
    ∃ m, m ≤ i ∧ allSpaces (s.drop m) = true ∧
      ((m = 0 ∧ lastIndexFuncLoop s isSpace false fuel i = -1) ∨
       (0 < m ∧ endsWithSpace (s.take m) = false ∧
        lastIndexFuncLoop s isSpace false fuel i
          = ((m - (decodeLastRune (s.take m)).2 : Nat) : Int))) := by
  induction fuel generalizing i with
  | zero =>
    have e : i = 0 := by omega
    subst e
    exact ⟨0, le_refl _, hsp, Or.inl ⟨rfl, rfl⟩⟩
  | succ k ih =>
    unfold lastIndexFuncLoop
    by_cases hpos : i > 0
    · simp only [hpos, if_true, slice_zero]
      have h0 : s.take i ≠ [] := by
        intro hc
        have := congrArg List.length hc
        rw [List.length_take, List.length_nil] at this
        omega
      obtain ⟨hs1, hs2, hs3⟩ := decodeLastRune_spec (s.take i) h0
      have hl : (s.take i).length = i := by
        simp
        omega
      rw [hl] at hs2 hs3
      by_cases hns : isSpace (decodeLastRune (s.take i)).1 = false
      · simp only [hns, if_true]
        exact ⟨i, le_refl _, hsp, Or.inr ⟨hpos, hns, rfl⟩⟩
      · simp only [hns, if_false]
        have hsp' := allSpaces_false_of_not _ hns
        have hd : decodeRune ((s.take i).drop (i - (decodeLastRune (s.take i)).2))
            = decodeLastRune (s.take i) := by
          rcases hs3 with h | h
          · rw [h] at hsp'
            have : isSpace RuneError = true := hsp'
            rw [isSpace_RuneError] at this
            exact Bool.noConfusion this
          · exact h
        have key : allSpaces (s.drop (i - (decodeLastRune (s.take i)).2)) = true := by
          have hne := drop_ne_nil s (i - (decodeLastRune (s.take i)).2) (by omega)
          have happ := slice_append_drop s (i - (decodeLastRune (s.take i)).2) i (by omega) hi
          unfold slice at happ
          have hdd : decodeRune (s.drop (i - (decodeLastRune (s.take i)).2))
              = decodeLastRune (s.take i) := by
            rw [← happ, decodeRune_append_valid _ _ (space_validAt _ (by rw [hd]; exact hsp')), hd]
          rw [allSpaces_step _ hne, hdd]
          refine ⟨hsp', ?_⟩
          rw [drop_drop_add]
          have : i - (decodeLastRune (s.take i)).2 + (decodeLastRune (s.take i)).2 = i := by
            omega
          rw [this]
          exact hsp
        obtain ⟨m, hm1, hm2, hm3⟩ := ih (i - (decodeLastRune (s.take i)).2) (by omega) (by omega) key
        exact ⟨m, by omega, hm2, hm3⟩
    · have e : i = 0 := by omega
      subst e
      rw [if_neg hpos]
      exact ⟨0, le_refl _, hsp, Or.inl ⟨rfl, rfl⟩⟩

/-- The index adjustment at the end of `TrimRightFunc`: from the start of the last
rune that is not a space it arrives at the end of that rune. -/
theorem trimRight_finish (s : GoString) (m : Nat) (hm : 0 < m) (hml : m ≤ s.length)
    (hsp : allSpaces (s.drop m) = true) (idx : Nat)
    (hidx : idx = m - (decodeLastRune (s.take m)).2) :
    (if (idx : Int) ≥ 0 ∧ byteAt s (idx : Int).toNat ≥ RuneSelf then
        (idx : Int) + ((decodeRune (s.drop (idx : Int).toNat)).2 : Int)
      else (idx : Int) + 1) = (m : Int) := by
  have h0 : s.take m ≠ [] := by
    intro hc
    have := congrArg List.length hc
    rw [List.length_take, List.length_nil] at this
    omega
  obtain ⟨hs1, hs2, hs3⟩ := decodeLastRune_spec (s.take m) h0
  have hl : (s.take m).length = m := by
    rw [List.length_take]
    omega
  rw [hl] at hs2 hs3
  rw [← hidx] at hs3
  have hidx_lt : idx < m := by omega
  have happ := slice_append_drop s idx m (by omega) hml
  unfold slice at happ
  have hb0 : byteAt ((s.take m).drop idx) 0 = byteAt s idx := by
    rw [byteAt_drop, Nat.add_zero, byteAt_take _ _ _ hidx_lt]
  -- a rune wider than one byte is decoded the same way from the whole rest
  have wide : 2 ≤ (decodeLastRune (s.take m)).2 →
      decodeRune (s.drop idx) = decodeLastRune (s.take m) := by
    intro h2
    have hd : decodeRune ((s.take m).drop idx) = decodeLastRune (s.take m) := by
      rcases hs3 with h | h
      · rw [h] at h2
        simp at h2
      · exact h
    rw [← happ, decodeRune_append_valid _ _ (Or.inl (by rw [hd]; exact h2)), hd]
  simp only [Int.toNat_ofNat]
  by_cases hge : byteAt s idx ≥ RuneSelf
  · have hc : (idx : Int) ≥ 0 ∧ byteAt s idx ≥ RuneSelf := ⟨by omega, hge⟩
    rw [if_pos hc]
    by_cases h2 : 2 ≤ (decodeLastRune (s.take m)).2
    · rw [wide h2]
      omega
    · have hk : (decodeLastRune (s.take m)).2 = 1 := by omega
      have hdrop : s.drop idx = s[idx] :: s.drop (idx + 1) :=
        List.drop_eq_getElem_cons (by omega)
      have hm1 : idx + 1 = m := by omega
      have hbyte : byteAt s idx = (s[idx]).val := by
        unfold byteAt
        rw [List.getD_eq_getElem _ _ (by omega)]
      have hq : s.drop m = [] ∨ byteAt (s.drop m) 0 < 0x80 ∨ 0xBF < byteAt (s.drop m) 0 := by
        by_cases he : s.drop m = []
        · exact Or.inl he
        · exact Or.inr (space_first_byte _ ((allSpaces_step _ he).mp hsp).1).2
      rw [hdrop, hm1, decodeRune_lone _ _ (by rw [← hbyte]; exact hge) hq]
      omega
  · have hc : ¬ ((idx : Int) ≥ 0 ∧ byteAt s idx ≥ RuneSelf) := fun h => hge h.2
    rw [if_neg hc]
    by_cases h2 : 2 ≤ (decodeLastRune (s.take m)).2
    · exfalso
      have hd : decodeRune ((s.take m).drop idx) = decodeLastRune (s.take m) := by
        rcases hs3 with h | h
        · rw [h] at h2
          simp at h2
        · exact h
      have := decodeRune_wide_lead ((s.take m).drop idx) (by rw [hd]; exact h2)
      rw [hb0] at this
      unfold RuneSelf at hge
      omega
    · omega

/-- Go `TrimRightFunc(s, unicode.IsSpace)` keeps a prefix `s[:m]` that does not end
with a space and removes a suffix that is all white space; when it keeps nothing
the whole string is white space. -/
theorem TrimRightFunc_spec (s : GoString) :
    ∃ m, m ≤ s.length ∧ TrimRightFunc s isSpace = s.take m ∧ allSpaces (s.drop m) = true ∧
      endsWithSpace (s.take m) = false ∧ (m = 0 → allSpaces s = true) := by
  obtain ⟨m, hm1, hm2, hm3⟩ :=
    lastIndexFuncLoop_spec s s.length s.length (le_refl _) (le_refl _)
      (by simpa using allSpaces_nil)
  refine ⟨m, hm1, ?_, hm2, ?_, ?_⟩
  · unfold TrimRightFunc lastIndexFunc
    rcases hm3 with ⟨h0, h1⟩ | ⟨h0, _, h2⟩
    · subst h0
      rw [h1]
      simp [slice]
    · rw [h2]
      dsimp only
      rw [trimRight_finish s m h0 hm1 hm2 _ rfl, slice_zero, Int.toNat_ofNat]
  · rcases hm3 with ⟨h0, _⟩ | ⟨_, h1, _⟩
    · subst h0
      simp [endsWithSpace_nil]
    · exact h1
  · intro h0
    subst h0
    simpa using hm2

/-- A string that does not end with a space is left alone by `TrimRightFunc`. -/
theorem TrimRightFunc_fixed (s : GoString) (h : endsWithSpace s = false) :
    TrimRightFunc s isSpace = s := by
  cases hs : s with
  | nil => rfl
  | cons a t =>
    rw [← hs]
    have hpos : 0 < s.length := by
      rw [hs]
      simp
    have hloop : lastIndexFunc s isSpace false
        = ((s.length - (decodeLastRune (s.take s.length)).2 : Nat) : Int) := by
      unfold lastIndexFunc
      obtain ⟨n, hn⟩ : ∃ n, s.length = n + 1 := ⟨s.length - 1, by omega⟩
      have e : lastIndexFuncLoop s isSpace false s.length s.length
          = lastIndexFuncLoop s isSpace false (n + 1) s.length := by rw [hn]
      rw [e]
      unfold lastIndexFuncLoop
      unfold endsWithSpace at h
      simp only [gt_iff_lt, hpos, if_true, slice_zero, List.take_length, h]
    unfold TrimRightFunc
    rw [hloop]
    dsimp only
    rw [trimRight_finish s s.length hpos (le_refl _) (by simpa using allSpaces_nil) _ rfl,
      slice_zero, Int.toNat_ofNat, List.take_length]

/-- Go `TrimFunc(s, unicode.IsSpace)` is a slice `s[a:m]` of `s` that neither
starts nor ends with a space, between a prefix and a suffix that are all white
space. -/
theorem TrimFunc_spec (s : GoString) :
    ∃ a m, a ≤ m ∧ m ≤ s.length ∧ TrimFunc s isSpace = slice s a m ∧
      allSpaces (s.take a) = true ∧ allSpaces (s.drop m) = true ∧
      startsWithSpace (slice s a m) = false ∧ endsWithSpace (slice s a m) = false := by
  obtain ⟨a, ha1, ha2, ha3, ha4⟩ := TrimLeftFunc_spec s
  obtain ⟨m, hm1, hm2, hm3, hm4, _⟩ := TrimRightFunc_spec (s.drop a)
  rw [List.length_drop] at hm1
  have hsl : (s.drop a).take m = slice s a (a + m) := by
    rw [slice_eq_take_drop]
    congr 1
    omega
  refine ⟨a, a + m, by omega, by omega, ?_, ha3, ?_, ?_, ?_⟩
  · unfold TrimFunc
    rw [ha2, hm2, hsl]
  · rw [drop_drop_add] at hm3
    exact hm3
  · rw [← hsl]
    cases hh : startsWithSpace ((s.drop a).take m)
    · rfl
    · exfalso
      unfold startsWithSpace at hh ha4
      have hv := space_validAt _ hh
      have := decodeRune_append_valid _ ((s.drop a).drop m) hv
      rw [List.take_append_drop] at this
      rw [this, hh] at ha4
      exact Bool.noConfusion ha4
  · rw [← hsl]
    exact hm4

theorem byteAt_slice (s : GoString) (i j x : Nat) (h : i + x < j) :
    byteAt (slice s i j) x = byteAt s (i + x) := by
  unfold slice
  rw [byteAt_drop, byteAt_take _ _ _ h]

theorem slice_take (s : GoString) (i j m : Nat) (h : i + m ≤ j) :
    (slice s i j).take m = slice s i (i + m) := by
  rw [slice_eq_take_drop, slice_eq_take_drop, List.take_take]
  congr 1
  omega

theorem slice_of_drop (s : GoString) (k i j : Nat) :
    slice (s.drop k) i j = slice s (k + i) (k + j) := by
  rw [slice_eq_take_drop, slice_eq_take_drop, drop_drop_add]
  congr 1
  omega

theorem decodeLastRune_ascii (s : GoString) (h : s ≠ [])
    (hb : byteAt s (s.length - 1) < 0x80) :
    decodeLastRune s = (byteAt s (s.length - 1), 1) := by
  have hl : 0 < s.length := List.length_pos.mpr h
  unfold decodeLastRune
  have hne : ¬ ((s.length : Int) = 0) := by omega
  have e : ((s.length : Int) - 1).toNat = s.length - 1 := by omega
  simp only [hne, if_false, e]
  have hb' : byteAt s (s.length - 1) < RuneSelf := hb
  rw [if_pos hb']

theorem startsWithSpace_ascii (r : GoString) (h0 : r ≠ []) (hb : byteAt r 0 < 0x80)
    (ha : asciiSpace (byteAt r 0) = 0) : startsWithSpace r = false := by
  unfold startsWithSpace
  rw [decodeRune_ascii r h0 hb]
  cases hh : isSpace (byteAt r 0)
  · rfl
  · exact absurd ha ((isSpace_ascii _ hb).mp hh)

theorem endsWithSpace_ascii (r : GoString) (h0 : r ≠ []) (hb : byteAt r (r.length - 1) < 0x80)
    (ha : asciiSpace (byteAt r (r.length - 1)) = 0) : endsWithSpace r = false := by
  unfold endsWithSpace
  rw [decodeLastRune_ascii r h0 hb]
  cases hh : isSpace (byteAt r (r.length - 1))
  · rfl
  · exact absurd ha ((isSpace_ascii _ hb).mp hh)

theorem ne_nil_of_length_pos (r : GoString) (h : 0 < r.length) : r ≠ [] :=
  List.length_pos.mp h

theorem byteAt_eq_getElem (s : GoString) (i : Nat) (h : i < s.length) :
    byteAt s i = (s[i]).val := by
  unfold byteAt
  rw [List.getD_eq_getElem _ _ h]

/-- The second loop of `TrimSpace`, entered with white space cut off on both sides
and, unless nothing is left, an ASCII byte that is not a space at `start`. -/
theorem trimSpaceStop_spec (s : GoString) (start stop : Nat) (h1 : start ≤ stop)
    (h2 : stop ≤ s.length) (hpre : allSpaces (s.take start) = true)
    (hsuf : allSpaces (s.drop stop) = true)
    (hst : start = stop ∨ (byteAt s start < 0x80 ∧ asciiSpace (byteAt s start) = 0)) :
    TrimResult s (trimSpaceStop s start stop) := by
  induction stop with
  | zero =>
    have e : start = 0 := by omega
    subst e
    have e2 : trimSpaceStop s 0 0 = slice s 0 0 := rfl
    rw [e2]
    exact ⟨0, 0, le_refl _, by omega, rfl, hpre, hsuf, by rw [slice_self]; rfl,
      by rw [slice_self]; rfl⟩
  | succ k ih =>
    unfold trimSpaceStop
    by_cases hgt : k + 1 > start
    · rw [if_pos hgt]
      have hfirst : byteAt s start < 0x80 ∧ asciiSpace (byteAt s start) = 0 := by
        rcases hst with h | h
        · omega
        · exact h
      dsimp only
      by_cases hc : byteAt s k ≥ RuneSelf
      · rw [if_pos hc]
        obtain ⟨m, hm1, hm2, hm3, hm4, hm5⟩ := TrimRightFunc_spec (slice s start (k + 1))
        rw [slice_length s start (k + 1) h2] at hm1
        rw [slice_take s start (k + 1) m (by omega)] at hm2 hm4
        rw [slice_drop] at hm3
        have hb0 : byteAt (slice s start (k + 1)) 0 = byteAt s start := by
          rw [byteAt_slice s start (k + 1) 0 (by omega), Nat.add_zero]
        have hne : slice s start (k + 1) ≠ [] := by
          apply ne_nil_of_length_pos
          rw [slice_length s start (k + 1) h2]
          omega
        have hmpos : 0 < m := by
          by_contra hz
          have hz' : m = 0 := by omega
          have hall := hm5 hz'
          have := ((allSpaces_step _ hne).mp hall).1
          have hns := startsWithSpace_ascii _ hne (by rw [hb0]; exact hfirst.1)
            (by rw [hb0]; exact hfirst.2)
          unfold startsWithSpace at hns
          rw [hns] at this
          exact Bool.noConfusion this
        refine ⟨start, start + m, by omega, by omega, hm2, hpre, ?_, ?_, ?_⟩
        · rw [← slice_append_drop s (start + m) (k + 1) (by omega) h2]
          exact allSpaces_append _ _ hm3 hsuf
        · rw [hm2]
          have hne2 : slice s start (start + m) ≠ [] := by
            apply ne_nil_of_length_pos
            rw [slice_length s start (start + m) (by omega)]
            omega
          have hb1 : byteAt (slice s start (start + m)) 0 = byteAt s start := by
            rw [byteAt_slice s start (start + m) 0 (by omega), Nat.add_zero]
          exact startsWithSpace_ascii _ hne2 (by rw [hb1]; exact hfirst.1)
            (by rw [hb1]; exact hfirst.2)
        · rw [hm2]
          exact hm4
      · rw [if_neg hc]
        have hc' : byteAt s k < 0x80 := by
          unfold RuneSelf at hc
          omega
        by_cases ha : asciiSpace (byteAt s k) = 0
        · rw [if_pos ha]
          have hne : slice s start (k + 1) ≠ [] := by
            apply ne_nil_of_length_pos
            rw [slice_length s start (k + 1) h2]
            omega
          have hb0 : byteAt (slice s start (k + 1)) 0 = byteAt s start := by
            rw [byteAt_slice s start (k + 1) 0 (by omega), Nat.add_zero]
          have hbl : byteAt (slice s start (k + 1)) ((slice s start (k + 1)).length - 1)
              = byteAt s k := by
            rw [slice_length s start (k + 1) h2, byteAt_slice s start (k + 1) _ (by omega)]
            congr 1
            omega
          refine ⟨start, k + 1, by omega, h2, rfl, hpre, hsuf, ?_, ?_⟩
          · exact startsWithSpace_ascii _ hne (by rw [hb0]; exact hfirst.1)
              (by rw [hb0]; exact hfirst.2)
          · exact endsWithSpace_ascii _ hne (by rw [hbl]; exact hc') (by rw [hbl]; exact ha)
        · rw [if_neg ha]
          apply ih (by omega) (by omega)
          · have hdrop : s.drop k = s[k] :: s.drop (k + 1) :=
              List.drop_eq_getElem_cons (by omega)
            rw [hdrop, allSpaces_cons_ascii _ _ (by rw [← byteAt_eq_getElem]; exact hc')]
            rw [← byteAt_eq_getElem]
            exact ⟨ha, hsuf⟩
          · by_cases hk : start = k
            · exact Or.inl hk
            · exact Or.inr hfirst
    · rw [if_neg hgt]
      have e : start = k + 1 := by omega
      subst e
      exact ⟨k + 1, k + 1, le_refl _, h2, rfl, hpre, hsuf, by rw [slice_self]; rfl,
        by rw [slice_self]; rfl⟩

theorem take_succ_eq (s : GoString) (i : Nat) (h : i < s.length) :
    s.take (i + 1) = s.take i ++ [s[i]] := by
  rw [List.take_succ]
  simp [List.getElem?_eq_getElem h]

/-- The first loop of `TrimSpace`, entered with a white space prefix cut off. -/
theorem trimSpaceStart_spec (s : GoString) (n start : Nat) (h : start + n = s.length)
    (hpre : allSpaces (s.take start) = true) :
    TrimResult s (trimSpaceStart s n start) := by
  induction n generalizing start with
  | zero =>
    have e : start = s.length := by omega
    have e2 : trimSpaceStart s 0 start = trimSpaceStop s start s.length := rfl
    rw [e2]
    exact trimSpaceStop_spec s start s.length (by omega) (le_refl _) hpre
      (by simpa using allSpaces_nil) (Or.inl e)
  | succ k ih =>
    unfold trimSpaceStart
    dsimp only
    by_cases hc : byteAt s start ≥ RuneSelf
    · rw [if_pos hc]
      obtain ⟨a, m, h1, h2, h3, h4, h5, h6, h7⟩ := TrimFunc_spec (s.drop start)
      rw [List.length_drop] at h2
      rw [slice_of_drop] at h3 h6 h7
      rw [drop_drop_add] at h5
      refine ⟨start + a, start + m, by omega, by omega, h3, ?_, h5, ?_, ?_⟩
      · rw [List.take_add]
        exact allSpaces_append _ _ hpre h4
      · rw [h3]
        exact h6
      · rw [h3]
        exact h7
    · rw [if_neg hc]
      have hc' : byteAt s start < 0x80 := by
        unfold RuneSelf at hc
        omega
      by_cases ha : asciiSpace (byteAt s start) = 0
      · rw [if_pos ha]
        exact trimSpaceStop_spec s start s.length (by omega) (le_refl _) hpre
          (by simpa using allSpaces_nil) (Or.inr ⟨hc', ha⟩)
      · rw [if_neg ha]
        apply ih (start + 1) (by omega)
        rw [take_succ_eq s start (by omega)]
        apply allSpaces_append _ _ hpre
        rw [allSpaces_cons_ascii _ _ (by rw [← byteAt_eq_getElem]; exact hc'),
          ← byteAt_eq_getElem]
        exact ⟨ha, allSpaces_nil⟩

/-- Go `strings.TrimSpace` returns a slice of its argument that neither starts nor
ends with a white space character; what it removes in front and behind is all
white space. -/
theorem TrimSpace_spec (s : GoString) : TrimResult s (TrimSpace s) :=
  trimSpaceStart_spec s s.length 0 (by omega) (by simpa using allSpaces_nil)

theorem trimSpaceStop_self (s : GoString) (i : Nat) : trimSpaceStop s i i = [] := by
  cases i with
  | zero => exact slice_self s 0
  | succ k =>
    unfold trimSpaceStop
    rw [if_neg (by omega)]
    exact slice_self s (k + 1)

/-- On a rest that is all white space the first loop of `TrimSpace` ends with the
empty string. -/
theorem trimSpaceStart_allSpaces (s : GoString) (n start : Nat) (h : start + n = s.length)
    (hsp : allSpaces (s.drop start) = true) : trimSpaceStart s n start = [] := by
  induction n generalizing start with
  | zero =>
    have e : start = s.length := by omega
    have e2 : trimSpaceStart s 0 start = trimSpaceStop s start s.length := rfl
    rw [e2, e]
    exact trimSpaceStop_self s s.length
  | succ k ih =>
    unfold trimSpaceStart
    dsimp only
    by_cases hc : byteAt s start ≥ RuneSelf
    · rw [if_pos hc]
      unfold TrimFunc
      rw [TrimLeftFunc_allSpaces _ hsp]
      rfl
    · rw [if_neg hc]
      have hc' : byteAt s start < 0x80 := by
        unfold RuneSelf at hc
        omega
      have hdrop : s.drop start = s[start] :: s.drop (start + 1) :=
        List.drop_eq_getElem_cons (by omega)
      rw [hdrop, allSpaces_cons_ascii _ _ (by rw [← byteAt_eq_getElem]; exact hc'),
        ← byteAt_eq_getElem] at hsp
      rw [if_neg hsp.1]
      exact ih (start + 1) (by omega) hsp.2

/-- A string that consists only of white space characters is trimmed to the empty
string. -/
theorem TrimSpace_allSpaces (s : GoString) (h : allSpaces s = true) : TrimSpace s = [] :=
  trimSpaceStart_allSpaces s s.length 0 (by omega) (by simpa using h)

/-- A string that neither starts nor ends with a white space character is a fixed
point of `strings.TrimSpace`. -/
theorem TrimSpace_fixed (r : GoString) (h1 : startsWithSpace r = false)
    (h2 : endsWithSpace r = false) : TrimSpace r = r := by
  cases hr : r with
  | nil => rfl
  | cons b q =>
    rw [← hr]
    have hlen : r.length = q.length + 1 := by
      rw [hr]
      rfl
    have hne : r ≠ [] := by
      rw [hr]
      simp
    unfold TrimSpace
    rw [hlen]
    unfold trimSpaceStart
    dsimp only
    have tr : TrimRightFunc r isSpace = r := TrimRightFunc_fixed r h2
    by_cases hc : byteAt r 0 ≥ RuneSelf
    · rw [if_pos hc]
      unfold TrimFunc
      rw [List.drop_zero, TrimLeftFunc_fixed r h1, tr]
    · rw [if_neg hc]
      have hc' : byteAt r 0 < 0x80 := by
        unfold RuneSelf at hc
        omega
      have ha : asciiSpace (byteAt r 0) = 0 := by
        by_contra hx
        have := (isSpace_ascii _ hc').mpr hx
        unfold startsWithSpace at h1
        rw [decodeRune_ascii r hne hc', this] at h1
        exact Bool.noConfusion h1
      rw [if_pos ha, hlen]
      unfold trimSpaceStop
      rw [if_pos (by omega)]
      dsimp only
      have hfull : slice r 0 (q.length + 1) = r := by
        rw [← hlen, slice_full]
        rfl
      rw [hfull]
      by_cases hd : byteAt r q.length ≥ RuneSelf
      · rw [if_pos hd]
        exact tr
      · rw [if_neg hd]
        have hd' : byteAt r (r.length - 1) < 0x80 := by
          unfold RuneSelf at hd
          rw [hlen]
          exact Nat.lt_of_not_le hd
        have hb : asciiSpace (byteAt r q.length) = 0 := by
          by_contra hx
          have hx' : asciiSpace (byteAt r (r.length - 1)) ≠ 0 := by
            rw [hlen]
            exact hx
          have := (isSpace_ascii _ hd').mpr hx'
          unfold endsWithSpace at h2
          rw [decodeLastRune_ascii r hne hd', this] at h2
          exact Bool.noConfusion h2
        rw [if_pos hb]

/-- Go `strings.TrimSpace` is idempotent. -/
theorem TrimSpace_idem (s : GoString) : TrimSpace (TrimSpace s) = TrimSpace s := by
  obtain ⟨a, m, _, _, _, _, _, h6, h7⟩ := TrimSpace_spec s
  exact TrimSpace_fixed _ h6 h7

/-- The scan of `DecodeLastRuneInString` never runs out of its `UTFMax` steps:
any two step counts that exceed the distance to `lim` by two give the same
answer. -/
theorem backScan_fuel (s : GoString) (lim : Int) (n m : Nat) (st : Int)
    (hn : st - lim + 2 ≤ n) (hm : st - lim + 2 ≤ m) :
    backScan s lim n st = backScan s lim m st := by
  induction n generalizing m st with
  | zero =>
    have hlt : ¬ st ≥ lim := by omega
    cases m with
    | zero => rfl
    | succ j =>
      unfold backScan
      rw [if_neg hlt]
  | succ k ih =>
    cases m with
    | zero =>
      have hlt : ¬ st ≥ lim := by omega
      unfold backScan
      rw [if_neg hlt]
    | succ j =>
      unfold backScan
      by_cases hge : st ≥ lim
      · rw [if_pos hge, if_pos hge, ih j (st - 1) (by omega) (by omega)]
      · rw [if_neg hge, if_neg hge]

/-- The loop of `indexFunc` never runs out of iterations: every iteration count
of at least the number of bytes left gives the same answer. -/
theorem indexFuncLoop_fuel (s : GoString) (f : Rune → Bool) (truth : Bool) (n m i : Nat)
    (hn : s.length - i ≤ n) (hm : s.length - i ≤ m) :
    indexFuncLoop s f truth n i = indexFuncLoop s f truth m i := by
  induction n generalizing m i with
  | zero =>
    have hlt : ¬ i < s.length := by omega
    cases m with
    | zero => rfl
    | succ j =>
      unfold indexFuncLoop
      rw [if_neg hlt]
  | succ k ih =>
    cases m with
    | zero =>
      have hlt : ¬ i < s.length := by omega
      unfold indexFuncLoop
      rw [if_neg hlt]
    | succ j =>
      unfold indexFuncLoop
      by_cases hlt : i < s.length
      · rw [if_pos hlt, if_pos hlt]
        have hs := decodeRune_size (s.drop i) (drop_ne_nil s i hlt)
        dsimp only
        rw [ih j (i + (decodeRune (s.drop i)).2) (by omega) (by omega)]
      · rw [if_neg hlt, if_neg hlt]

/-- The loop of `lastIndexFunc` never runs out of iterations. -/
theorem lastIndexFuncLoop_fuel (s : GoString) (f : Rune → Bool) (truth : Bool) (n m i : Nat)
    (hi : i ≤ s.length) (hn : i ≤ n) (hm : i ≤ m) :
    lastIndexFuncLoop s f truth n i = lastIndexFuncLoop s f truth m i := by
  induction n generalizing m i with
  | zero =>
    have hlt : ¬ i > 0 := by omega
    cases m with
    | zero => rfl
    | succ j =>
      unfold lastIndexFuncLoop
      rw [if_neg hlt]
  | succ k ih =>
    cases m with
    | zero =>
      have hlt : ¬ i > 0 := by omega
      unfold lastIndexFuncLoop
      rw [if_neg hlt]
    | succ j =>
      unfold lastIndexFuncLoop
      by_cases hpos : i > 0
      · rw [if_pos hpos, if_pos hpos]
        have h0 : s.take i ≠ [] := by
          intro hc
          have := congrArg List.length hc
          rw [List.length_take, List.length_nil] at this
          omega
        have hs := decodeLastRune_spec (s.take i) h0
        dsimp only
        rw [slice_zero]
        rw [ih j (i - (decodeLastRune (s.take i)).2) (by omega) (by omega) (by omega)]
      · rw [if_neg hpos, if_neg hpos]

set_option maxRecDepth 100000 in
theorem RuneStart_byte (b : Byte) :
    RuneStart b.val = decide (¬ (0x80 ≤ b.val ∧ b.val ≤ 0xBF)) := by
  revert b
  decide

theorem RuneStart_iff (b : Nat) (hb : b < 256) :
    RuneStart b = true ↔ ¬ (0x80 ≤ b ∧ b ≤ 0xBF) := by
  have := RuneStart_byte ⟨b, hb⟩
  simp only at this
  rw [this, decide_eq_true_eq]

/-- The bytes of a multi-byte rune after the first are continuation bytes, and
the rune is at most four bytes wide. -/
theorem decodeRune_cont (s : GoString) (h : 2 ≤ (decodeRune s).2) :
    (decodeRune s).2 ≤ 4 ∧
    ∀ i, 1 ≤ i → i < (decodeRune s).2 → 0x80 ≤ byteAt s i ∧ byteAt s i ≤ 0xBF := by
  rw [decodeRune_arith] at h ⊢
  have l1 := lo1_ge (byteAt s 0)
  have l2 := hi1_le (byteAt s 0)
  unfold decodeArith at h ⊢
  split_ifs at h ⊢ <;> first
    | (simp only at h; omega)
    | (refine ⟨by simp, ?_⟩
       intro i hi1 hi2
       simp only at hi2
       have : i = 1 ∨ i = 2 ∨ i = 3 := by omega
       rcases this with rfl | rfl | rfl <;> omega)

/-- The backwards scan stops at the first rune start it meets: when the `j`
positions above `pos` hold continuation bytes and `pos` holds a rune start that
is not below `lim`, the scan from `pos + j` ends at `pos`. -/
theorem backScan_finds (s : GoString) (lim : Int) (pos j n : Nat) (hn : j + 1 ≤ n)
    (hlim : lim ≤ (pos : Int)) (hstart : RuneStart (byteAt s pos) = true)
    (hcont : ∀ i, pos < i → i ≤ pos + j → RuneStart (byteAt s i) = false) :
    backScan s lim n ((pos : Int) + (j : Int)) = (pos : Int) := by
  induction j generalizing n with
  | zero =>
    obtain ⟨m, rfl⟩ : ∃ m, n = m + 1 := ⟨n - 1, by omega⟩
    unfold backScan
    have h1 : (pos : Int) + ((0 : Nat) : Int) ≥ lim := by omega
    have h2 : ((pos : Int) + ((0 : Nat) : Int)).toNat = pos := by omega
    rw [if_pos h1, h2, if_pos hstart]
    omega
  | succ k ih =>
    obtain ⟨m, rfl⟩ : ∃ m, n = m + 1 := ⟨n - 1, by omega⟩
    unfold backScan
    have h1 : (pos : Int) + ((k + 1 : Nat) : Int) ≥ lim := by omega
    have h2 : ((pos : Int) + ((k + 1 : Nat) : Int)).toNat = pos + (k + 1) := by omega
    have h3 := hcont (pos + (k + 1)) (by omega) (le_refl _)
    have h4 : (pos : Int) + ((k + 1 : Nat) : Int) - 1 = (pos : Int) + (k : Int) := by omega
    rw [if_pos h1, h2, h3, h4]
    simp only [Bool.false_eq_true, if_false]
    exact ih m (by omega) (fun i hi1 hi2 => hcont i hi1 (by omega))

/-- A string that ends with the encoding of a white space character is seen to
end with that character by `DecodeLastRuneInString`. -/
theorem decodeLastRune_append_space (p e : GoString) (he : IsSpaceChar e) :
    decodeLastRune (p ++ e) = decodeRune e := by
  obtain ⟨hsp, hlen⟩ := he
  have hne : e ≠ [] := (space_first_byte e hsp).1
  have hpe : p ++ e ≠ [] := by simp [hne]
  have hepos : 0 < e.length := List.length_pos.mpr hne
  rcases space_valid e hsp with h2 | ⟨_, hb⟩
  · obtain ⟨h4, hcont⟩ := decodeRune_cont e h2
    have hlead := decodeRune_wide_lead e h2
    have hbyte : ∀ i, i < e.length → byteAt (p ++ e) (p.length + i) = byteAt e i := by
      intro i hi
      unfold byteAt
      rw [List.getD_append_right _ _ _ _ (by omega)]
      have ei : p.length + i - p.length = i := by omega
      rw [ei]
    unfold decodeLastRune
    have hz : ¬ (((p ++ e).length : Int) = 0) := by
      rw [List.length_append]
      omega
    simp only [hz, if_false]
    have e1 : (((p ++ e).length : Int) - 1).toNat = p.length + (e.length - 1) := by
      rw [List.length_append]
      omega
    have hlast : ¬ byteAt (p ++ e) (p.length + (e.length - 1)) < RuneSelf := by
      rw [hbyte _ (by omega)]
      have := (hcont (e.length - 1) (by omega) (by omega)).1
      unfold RuneSelf
      omega
    rw [e1, if_neg hlast]
    generalize hlim : (if ((p ++ e).length : Int) - (UTFMax : Int) < 0 then (0 : Int)
      else ((p ++ e).length : Int) - (UTFMax : Int)) = lim
    have hlim2 : lim ≤ (p.length : Int) := by
      rw [← hlim, List.length_append]
      unfold UTFMax
      split_ifs <;> omega
    have e2 : ((p ++ e).length : Int) - 1 - 1 = (p.length : Int) + ((e.length - 2 : Nat) : Int) := by
      rw [List.length_append]
      omega
    have hscan : backScan (p ++ e) lim UTFMax ((p.length : Int) + ((e.length - 2 : Nat) : Int))
        = (p.length : Int) := by
      apply backScan_finds
      · unfold UTFMax
        omega
      · exact hlim2
      · have := hbyte 0 hepos
        rw [Nat.add_zero] at this
        rw [this, RuneStart_iff _ (byteAt_lt e 0)]
        omega
      · intro i hi1 hi2
        have := hbyte (i - p.length) (by omega)
        have e3 : p.length + (i - p.length) = i := by omega
        rw [e3] at this
        have hc := hcont (i - p.length) (by omega) (by omega)
        cases hh : RuneStart (byteAt (p ++ e) i)
        · rfl
        · rw [this, RuneStart_iff _ (byteAt_lt e _)] at hh
          exact absurd hc hh
    rw [e2, hscan]
    have hnn : ¬ ((p.length : Int) < 0) := by omega
    simp only [hnn, if_false, Int.toNat_ofNat, slice_full, List.drop_left]
    have hk : ¬ ((p.length : Int) + ((decodeRune e).2 : Int) ≠ ((p ++ e).length : Int)) := by
      rw [List.length_append, hlen]
      omega
    rw [if_neg hk]
  · have hd := decodeRune_ascii e hne hb
    rw [hd] at hlen
    have hl1 : e.length = 1 := hlen.symm
    have hbl : byteAt (p ++ e) ((p ++ e).length - 1) = byteAt e 0 := by
      unfold byteAt
      rw [List.getD_append_right _ _ _ _ (by rw [List.length_append]; omega)]
      have ei : (p ++ e).length - 1 - p.length = 0 := by
        rw [List.length_append]
        omega
      rw [ei]
    rw [decodeLastRune_ascii _ hpe (by rw [hbl]; exact hb), hbl, hd]

/-- The string starts with a white space character exactly when it has the
encoding of a white space character in front. -/
theorem startsWithSpace_iff (r : GoString) :
    startsWithSpace r = true ↔ ∃ e q, r = e ++ q ∧ IsSpaceChar e := by
  unfold startsWithSpace
  constructor
  · intro h
    have hne := (space_first_byte r h).1
    have hs := decodeRune_size r hne
    have hd := decodeRune_take_valid r (decodeRune r).2 (space_validAt r h) (le_refl _)
    refine ⟨r.take (decodeRune r).2, r.drop (decodeRune r).2, (List.take_append_drop _ _).symm, ?_⟩
    unfold IsSpaceChar
    rw [hd, List.length_take]
    exact ⟨h, by omega⟩
  · rintro ⟨e, q, rfl, he⟩
    rw [decodeRune_append_valid e q (space_validAt e he.1)]
    exact he.1

/-- The string ends with a white space character exactly when it has the
encoding of a white space character at its end. -/
theorem endsWithSpace_iff (r : GoString) :
    endsWithSpace r = true ↔ ∃ p e, r = p ++ e ∧ IsSpaceChar e := by
  unfold endsWithSpace
  constructor
  · intro h
    have hne : r ≠ [] := by
      rintro rfl
      exact Bool.noConfusion (endsWithSpace_nil.symm.trans h)
    obtain ⟨h1, h2, h3⟩ := decodeLastRune_spec r hne
    have hd : decodeRune (r.drop (r.length - (decodeLastRune r).2)) = decodeLastRune r := by
      rcases h3 with h3 | h3
      · rw [h3] at h
        exact Bool.noConfusion (isSpace_RuneError.symm.trans h)
      · exact h3
    refine ⟨r.take (r.length - (decodeLastRune r).2), r.drop (r.length - (decodeLastRune r).2),
      (List.take_append_drop _ _).symm, ?_⟩
    unfold IsSpaceChar
    rw [hd, List.length_drop]
    exact ⟨h, by omega⟩
  · rintro ⟨p, e, rfl, he⟩
    rw [decodeLastRune_append_space p e he]
    exact he.1

theorem allSpaces_of_spaceChar (e : GoString) (he : IsSpaceChar e) : allSpaces e = true := by
  have hne := (space_first_byte e he.1).1
  rw [allSpaces_step e hne, he.2]
  refine ⟨he.1, ?_⟩
  rw [List.drop_length]
  exact allSpaces_nil

/-- The string consists only of white space characters exactly when it is a
concatenation of encodings of white space characters. -/
theorem allSpaces_iff (r : GoString) :
    allSpaces r = true ↔ ∃ es : List GoString, (∀ e, e ∈ es → IsSpaceChar e) ∧ r = es.flatten := by
  constructor
  · suffices H : ∀ n (r : GoString), r.length = n → allSpaces r = true →
        ∃ es : List GoString, (∀ e, e ∈ es → IsSpaceChar e) ∧ r = es.flatten from H r.length r rfl
    intro n
    induction n using Nat.strong_induction_on with
    | _ n ih =>
      intro r hn h
      by_cases h0 : r = []
      · exact ⟨[], fun e he => absurd he (List.not_mem_nil e), by rw [h0]; rfl⟩
      · obtain ⟨h1, h2⟩ := (allSpaces_step r h0).mp h
        have hs := decodeRune_size r h0
        obtain ⟨es, hes, hr⟩ := ih (r.drop (decodeRune r).2).length
          (by rw [List.length_drop]; omega) _ rfl h2
        have hd := decodeRune_take_valid r (decodeRune r).2 (space_validAt r h1) (le_refl _)
        refine ⟨r.take (decodeRune r).2 :: es, ?_, ?_⟩
        · intro e he
          rcases List.mem_cons.mp he with rfl | he
          · unfold IsSpaceChar
            rw [hd, List.length_take]
            exact ⟨h1, by omega⟩
          · exact hes e he
        · rw [List.flatten_cons, ← hr, List.take_append_drop]
  · rintro ⟨es, hes, rfl⟩
    induction es with
    | nil => exact allSpaces_nil
    | cons e t ih =>
      rw [List.flatten_cons]
      exact allSpaces_append _ _ (allSpaces_of_spaceChar e (hes e (List.mem_cons_self e t)))
        (ih (fun x hx => hes x (List.mem_cons_of_mem e hx)))

/-- The runes that satisfy `unicode.IsSpace`. -/
theorem isSpace_iff (r : Nat) :
    isSpace r = true ↔
      (9 ≤ r ∧ r ≤ 13) ∨ r = 0x20 ∨ r = 0x85 ∨ r = 0xA0 ∨ r = 0x1680 ∨
      (0x2000 ≤ r ∧ r ≤ 0x200A) ∨ r = 0x2028 ∨ r = 0x2029 ∨ r = 0x202F ∨ r = 0x205F ∨
      r = 0x3000 := by
  unfold isSpace MaxLatin1
  by_cases h : r ≤ 0xFF
  · rw [if_pos h]
    simp only [Bool.or_eq_true, decide_eq_true_eq]
    unfold Rune
    omega
  · rw [if_neg h]
    unfold isExcludingLatin White_Space_R16 White_Space_LatinOffset
    simp only [List.length_cons, List.length_nil, List.getLastD, List.drop, is16, List.getLast]
    have hlen : 0 + 1 + 1 + 1 + 1 + 1 + 1 + 1 > 2 := by omega
    by_cases hhi : r ≤ 12288
    · rw [if_pos ⟨hlen, hhi⟩]
      split_ifs <;> simp <;> omega
    · have hc : ¬ (0 + 1 + 1 + 1 + 1 + 1 + 1 + 1 > 2 ∧ r ≤ 12288) := fun hx => hhi hx.2
      rw [if_neg hc]
      simp
      omega

theorem lo1_f0 (b0 : Nat) : b0 = 0xF0 → 0x90 ≤ lo1 b0 := by
  intro hb
  subst hb
  decide

theorem lo1_e0 (b0 : Nat) : b0 = 0xE0 → 0xA0 ≤ lo1 b0 := by
  intro hb
  subst hb
  decide

/-- The two-byte sequences that decode to a white space character. -/
theorem space_bytes_2 (b0 b1 : Nat) (h0 : 0xC2 ≤ b0) (h0u : b0 < 0xE0) (h1 : 0x80 ≤ b1)
    (h1u : b1 ≤ 0xBF) (hs : isSpace ((b0 % 32) * 64 + b1 % 64) = true) :
    b0 = 0xC2 ∧ (b1 = 0x85 ∨ b1 = 0xA0) := by
  rw [isSpace_iff] at hs
  obtain ⟨x0, rfl⟩ : ∃ x0, b0 = 0xC0 + x0 := ⟨b0 - 0xC0, by omega⟩
  obtain ⟨x1, rfl⟩ : ∃ x1, b1 = 0x80 + x1 := ⟨b1 - 0x80, by omega⟩
  have e0 : (0xC0 + x0) % 32 = x0 := by omega
  have e1 : (0x80 + x1) % 64 = x1 := by omega
  rw [e0, e1] at hs
  rcases hs with h | h | h | h | h | h | h | h | h | h | h <;> omega

/-- The three-byte sequences that decode to a white space character. -/
theorem space_bytes_3 (b0 b1 b2 : Nat) (h0 : 0xE0 ≤ b0) (h0u : b0 < 0xF0) (h1 : lo1 b0 ≤ b1)
    (h1u : b1 ≤ hi1 b0) (h2 : 0x80 ≤ b2) (h2u : b2 ≤ 0xBF)
    (hs : isSpace ((b0 % 16) * 4096 + (b1 % 64) * 64 + b2 % 64) = true) :
    (b0 = 0xE1 ∧ b1 = 0x9A ∧ b2 = 0x80) ∨
    (b0 = 0xE2 ∧ b1 = 0x80 ∧ (0x80 ≤ b2 ∧ b2 ≤ 0x8A ∨ b2 = 0xA8 ∨ b2 = 0xA9 ∨ b2 = 0xAF)) ∨
    (b0 = 0xE2 ∧ b1 = 0x81 ∧ b2 = 0x9F) ∨
    (b0 = 0xE3 ∧ b1 = 0x80 ∧ b2 = 0x80) := by
  rw [isSpace_iff] at hs
  have l1 := lo1_ge b0
  have l2 := hi1_le b0
  have l3 := lo1_e0 b0
  obtain ⟨x0, rfl⟩ : ∃ x0, b0 = 0xE0 + x0 := ⟨b0 - 0xE0, by omega⟩
  obtain ⟨x1, rfl⟩ : ∃ x1, b1 = 0x80 + x1 := ⟨b1 - 0x80, by omega⟩
  obtain ⟨x2, rfl⟩ : ∃ x2, b2 = 0x80 + x2 := ⟨b2 - 0x80, by omega⟩
  have e0 : (0xE0 + x0) % 16 = x0 := by omega
  have e1 : (0x80 + x1) % 64 = x1 := by omega
  have e2 : (0x80 + x2) % 64 = x2 := by omega
  rw [e0, e1, e2] at hs
  have hx1 : x1 < 64 := by omega
  have hx2 : x2 < 64 := by omega
  have hlow : 0x800 ≤ x0 * 4096 + x1 * 64 + x2 := by
    by_cases hb : x0 = 0
    · have := l3 (by omega)
      omega
    · omega
  clear e0 e1 e2 l1 l2 l3 h1 h1u h0 h2 h2u
  rcases hs with h | h | h | h | h | h | h | h | h | h | h
  · omega
  · omega
  · omega
  · omega
  · exact Or.inl (by omega)
  · exact Or.inr (Or.inl (by omega))
  · exact Or.inr (Or.inl (by omega))
  · exact Or.inr (Or.inl (by omega))
  · exact Or.inr (Or.inl (by omega))
  · exact Or.inr (Or.inr (Or.inl (by omega)))
  · exact Or.inr (Or.inr (Or.inr (by omega)))

/-- No four-byte sequence decodes to a white space character. -/
theorem space_bytes_4 (b0 b1 b2 b3 : Nat) (h0 : 0xF0 ≤ b0) (h0u : b0 ≤ 0xF4) (h1 : lo1 b0 ≤ b1)
    (h1u : b1 ≤ hi1 b0)
    (hs : isSpace ((b0 % 8) * 262144 + (b1 % 64) * 4096 + (b2 % 64) * 64 + b3 % 64) = true) :
    False := by
  rw [isSpace_iff] at hs
  have l1 := lo1_ge b0
  have l2 := hi1_le b0
  have l3 := lo1_f0 b0
  obtain ⟨x0, rfl⟩ : ∃ x0, b0 = 0xF0 + x0 := ⟨b0 - 0xF0, by omega⟩
  obtain ⟨x1, rfl⟩ : ∃ x1, b1 = 0x80 + x1 := ⟨b1 - 0x80, by omega⟩
  have e0 : (0xF0 + x0) % 8 = x0 := by omega
  have e1 : (0x80 + x1) % 64 = x1 := by omega
  rw [e0, e1] at hs
  have hlow : 0x10000 ≤ x0 * 262144 + x1 * 4096 := by
    by_cases hb : x0 = 0
    · have := l3 (by omega)
      omega
    · omega
  clear e0 e1 l1 l2 l3 h1 h1u
  rcases hs with h | h | h | h | h | h | h | h | h | h | h <;> omega

/-- The bytes of a rune that is a white space character and fills `n` bytes. -/
theorem decodeArith_space (n b0 b1 b2 b3 : Nat)
    (hs : isSpace (decodeArith n b0 b1 b2 b3).1 = true)
    (hn : (decodeArith n b0 b1 b2 b3).2 = n) :
    (n = 1 ∧ (9 ≤ b0 ∧ b0 ≤ 13 ∨ b0 = 0x20)) ∨
    (n = 2 ∧ b0 = 0xC2 ∧ (b1 = 0x85 ∨ b1 = 0xA0)) ∨
    (n = 3 ∧ ((b0 = 0xE1 ∧ b1 = 0x9A ∧ b2 = 0x80) ∨
      (b0 = 0xE2 ∧ b1 = 0x80 ∧
        (0x80 ≤ b2 ∧ b2 ≤ 0x8A ∨ b2 = 0xA8 ∨ b2 = 0xA9 ∨ b2 = 0xAF)) ∨
      (b0 = 0xE2 ∧ b1 = 0x81 ∧ b2 = 0x9F) ∨
      (b0 = 0xE3 ∧ b1 = 0x80 ∧ b2 = 0x80))) := by
  unfold decodeArith at hs hn
  by_cases c0 : n < 1
  · rw [if_pos c0] at hs
    exact Bool.noConfusion (isSpace_RuneError.symm.trans hs)
  rw [if_neg c0] at hs hn
  by_cases c1 : b0 < 0x80
  · rw [if_pos c1] at hs hn
    rw [isSpace_iff] at hs
    simp only at hs hn
    refine Or.inl ⟨hn.symm, ?_⟩
    omega
  rw [if_neg c1] at hs hn
  by_cases c2 : b0 < 0xC2 ∨ 0xF4 < b0
  · rw [if_pos c2] at hs
    exact Bool.noConfusion (isSpace_RuneError.symm.trans hs)
  rw [if_neg c2] at hs hn
  by_cases c3 : b0 < 0xE0
  · rw [if_pos c3] at hs hn
    by_cases c : n < 2 ∨ b1 < 0x80 ∨ 0xBF < b1
    · rw [if_pos c] at hs
      exact Bool.noConfusion (isSpace_RuneError.symm.trans hs)
    · rw [if_neg c] at hs hn
      exact Or.inr (Or.inl ⟨hn.symm,
        space_bytes_2 b0 b1 (by omega) c3 (by omega) (by omega) hs⟩)
  rw [if_neg c3] at hs hn
  by_cases c4 : b0 < 0xF0
  · rw [if_pos c4] at hs hn
    by_cases c : n < 3 ∨ b1 < lo1 b0 ∨ hi1 b0 < b1 ∨ b2 < 0x80 ∨ 0xBF < b2
    · rw [if_pos c] at hs
      exact Bool.noConfusion (isSpace_RuneError.symm.trans hs)
    · rw [if_neg c] at hs hn
      exact Or.inr (Or.inr ⟨hn.symm,
        space_bytes_3 b0 b1 b2 (by omega) c4 (by omega) (by omega) (by omega) (by omega) hs⟩)
  rw [if_neg c4] at hs hn
  by_cases c : n < 4 ∨ b1 < lo1 b0 ∨ hi1 b0 < b1 ∨ b2 < 0x80 ∨ 0xBF < b2 ∨ b3 < 0x80 ∨ 0xBF < b3
  · rw [if_pos c] at hs
    exact Bool.noConfusion (isSpace_RuneError.symm.trans hs)
  · rw [if_neg c] at hs hn
    exact absurd (space_bytes_4 b0 b1 b2 b3 (by omega) (by omega) (by omega) (by omega) hs) id

set_option maxRecDepth 100000 in
theorem mem_encodings_1 : ∀ a : Byte, (9 ≤ a.val ∧ a.val ≤ 13 ∨ a.val = 0x20) →
    [a] ∈ whiteSpaceEncodings := by
  decide

set_option maxRecDepth 100000 in
theorem mem_encodings_2 : ∀ b : Byte, (b.val = 0x85 ∨ b.val = 0xA0) →
    [0xC2, b] ∈ whiteSpaceEncodings := by
  decide

set_option maxRecDepth 100000 in
theorem mem_encodings_3 : ∀ c : Byte,
    (0x80 ≤ c.val ∧ c.val ≤ 0x8A ∨ c.val = 0xA8 ∨ c.val = 0xA9 ∨ c.val = 0xAF) →
    [0xE2, 0x80, c] ∈ whiteSpaceEncodings := by
  decide

theorem byte_eq (a : Byte) (n : Nat) (hn : n < 256) (h : a.val = n) : a = ⟨n, hn⟩ :=
  Fin.ext h

theorem spaceChar_of_mem : ∀ e, e ∈ whiteSpaceEncodings →
    isSpace (decodeRune e).1 = true ∧ (decodeRune e).2 = e.length := by
  decide

/-- The encodings of white space characters, as `unicode.IsSpace` and the UTF-8
decoder see them, are exactly the encodings of the 25 code points with the
Unicode property White_Space. -/
theorem isSpaceChar_iff (e : GoString) : IsSpaceChar e ↔ e ∈ whiteSpaceEncodings := by
  constructor
  · rintro ⟨hs, hn⟩
    rw [decodeRune_arith] at hs hn
    have key := decodeArith_space _ _ _ _ _ hs hn
    match e, key with
    | [], key => simp at key
    | [a], key =>
      simp only [List.length_singleton, byteAt_cons_zero] at key
      apply mem_encodings_1
      omega
    | [a, b], key =>
      simp only [List.length_cons, List.length_nil, byteAt_cons_zero, byteAt_cons_succ] at key
      have ha := byte_eq a 0xC2 (by decide) (by omega)
      subst ha
      apply mem_encodings_2
      omega
    | [a, b, c], key =>
      simp only [List.length_cons, List.length_nil, byteAt_cons_zero, byteAt_cons_succ] at key
      rcases key with h | h | ⟨_, h | h | h | h⟩
      · omega
      · omega
      · have ha := byte_eq a 0xE1 (by decide) (by omega)
        have hb := byte_eq b 0x9A (by decide) (by omega)
        have hc := byte_eq c 0x80 (by decide) (by omega)
        subst ha hb hc
        decide
      · have ha := byte_eq a 0xE2 (by decide) (by omega)
        have hb := byte_eq b 0x80 (by decide) (by omega)
        subst ha hb
        apply mem_encodings_3
        omega
      · have ha := byte_eq a 0xE2 (by decide) (by omega)
        have hb := byte_eq b 0x81 (by decide) (by omega)
        have hc := byte_eq c 0x9F (by decide) (by omega)
        subst ha hb hc
        decide
      · have ha := byte_eq a 0xE3 (by decide) (by omega)
        have hb := byte_eq b 0x80 (by decide) (by omega)
        have hc := byte_eq c 0x80 (by decide) (by omega)
        subst ha hb hc
        decide
    | a :: b :: c :: d :: r, key =>
      simp only [List.length_cons] at key
      omega
  · intro h
    exact spaceChar_of_mem e h

/-- The executable test `allSpaces` decides `WhiteSpaceOnly`. -/
theorem allSpaces_iff_whiteSpaceOnly (s : GoString) : allSpaces s = true ↔ WhiteSpaceOnly s := by
  rw [allSpaces_iff]
  constructor
  · rintro ⟨es, h1, h2⟩
    exact ⟨es, fun e he => (isSpaceChar_iff e).mp (h1 e he), h2⟩
  · rintro ⟨es, h1, h2⟩
    exact ⟨es, fun e he => (isSpaceChar_iff e).mpr (h1 e he), h2⟩

/-- The string does not start with a white space character exactly when none of
the encodings of white space characters stands at its front. -/
theorem startsWithSpace_false_iff (r : GoString) :
    startsWithSpace r = false ↔ ∀ e q, e ∈ whiteSpaceEncodings → r ≠ e ++ q := by
  constructor
  · intro h e q he hr
    have := (startsWithSpace_iff r).mpr ⟨e, q, hr, (isSpaceChar_iff e).mpr he⟩
    rw [h] at this
    exact Bool.noConfusion this
  · intro h
    cases hh : startsWithSpace r
    · rfl
    · obtain ⟨e, q, hr, he⟩ := (startsWithSpace_iff r).mp hh
      exact absurd hr (h e q ((isSpaceChar_iff e).mp he))

/-- The string does not end with a white space character exactly when none of the
encodings of white space characters stands at its end. -/
theorem endsWithSpace_false_iff (r : GoString) :
    endsWithSpace r = false ↔ ∀ p e, e ∈ whiteSpaceEncodings → r ≠ p ++ e := by
  constructor
  · intro h p e he hr
    have := (endsWithSpace_iff r).mpr ⟨p, e, hr, (isSpaceChar_iff e).mpr he⟩
    rw [h] at this
    exact Bool.noConfusion this
  · intro h
    cases hh : endsWithSpace r
    · rfl
    · obtain ⟨p, e, hr, he⟩ := (endsWithSpace_iff r).mp hh
      exact absurd hr (h p e ((isSpaceChar_iff e).mp he))

theorem parseContents_eq (c : GoString) (t : List Event) :
    parseContents c t = (Except.error (PanicValue.str "todo"), t ++ [Event.enter "parseContents"]) :=
  rfl

theorem part1_eq (i : Input) (t : List Event) :
    i.part1 t = (Except.error (PanicValue.str "todo"), t ++ [Event.enter "part1"]) := rfl

theorem part2_eq (i : Input) (t : List Event) :
    i.part2 t = (Except.error (PanicValue.str "todo"), t ++ [Event.enter "part2"]) := rfl

theorem readData_error (env : Env) (dir : String) (t : List Event) (e : PathError)
    (h : env.readFile (inputPath env dir) = Except.error e) :
    readData env dir t
      = (Except.error (PanicValue.err e), t ++ [Event.readFile (inputPath env dir)]) := by
  unfold readData
  simp only [bind, Go.andThen, emit, h]
  rfl

theorem readData_ok (env : Env) (dir : String) (t : List Event) (c : GoString)
    (h : env.readFile (inputPath env dir) = Except.ok c) :
    readData env dir t = (Except.ok (TrimSpace c), t ++ [Event.readFile (inputPath env dir)]) := by
  unfold readData
  simp only [bind, Go.andThen, emit, h]
  rfl

theorem main_error (env : Env) (t : List Event) (e : PathError)
    (h : env.readFile (inputPath env "./data") = Except.error e) :
    main env t
      = (Except.error (PanicValue.err e), t ++ [Event.readFile (inputPath env "./data")]) := by
  unfold main
  simp only [bind, Go.andThen, readData_error env "./data" t e h]

theorem main_ok (env : Env) (t : List Event) (c : GoString)
    (h : env.readFile (inputPath env "./data") = Except.ok c) :
    main env t
      = (Except.error (PanicValue.str "todo"),
          t ++ [Event.readFile (inputPath env "./data"), Event.enter "parseContents"]) := by
  unfold main
  simp only [bind, Go.andThen, readData_ok env "./data" t c h, parseContents_eq]
  simp

theorem printed_append (a b : List Event) : printed (a ++ b) = printed a ++ printed b := by
  induction a with
  | nil => rfl
  | cons e t ih =>
    cases e <;> simp [printed, ih]

theorem fileReads_append (a b : List Event) :
    fileReads (a ++ b) = fileReads a ++ fileReads b := by
  induction a with
  | nil => rfl
  | cons e t ih =>
    cases e <;> simp [fileReads, ih]

theorem entered_append (a b : List Event) : entered (a ++ b) = entered a ++ entered b := by
  induction a with
  | nil => rfl
  | cons e t ih =>
    cases e <;> simp [entered, ih]

/-- C1: for every input string, `parseContents` panics with the value "todo" and
never returns a `*Input`; the `return &Input{}` after the panic is not reached. -/
theorem parseContents_always_panics (s : GoString) (t : List Event) :
    (parseContents s t).1 = Except.error (PanicValue.str "todo") ∧
    ∀ p : Option Input, (parseContents s t).1 ≠ Except.ok p := by
  rw [parseContents_eq]
  exact ⟨rfl, fun p h => Except.noConfusion h⟩

/-- C2: for every `Input`, `part1` and `part2` both panic with the value "todo"
and neither returns an `int`. -/
theorem part1_part2_always_panic (i : Input) (t : List Event) :
    (i.part1 t).1 = Except.error (PanicValue.str "todo") ∧
    (i.part2 t).1 = Except.error (PanicValue.str "todo") ∧
    (∀ n : Int, (i.part1 t).1 ≠ Except.ok n) ∧ (∀ n : Int, (i.part2 t).1 ≠ Except.ok n) := by
  rw [part1_eq, part2_eq]
  exact ⟨rfl, rfl, fun n h => Except.noConfusion h, fun n h => Except.noConfusion h⟩

/-- C3: for every file system and directory, `readData` panics exactly when the
read of `Join(dir, "<package_name>.txt")` fails, and the panic value is then the
very error the read returned. -/
theorem readData_panics_iff_read_fails (env : Env) (dir : String) (t : List Event) :
    ((∃ v, (readData env dir t).1 = Except.error v) ↔
      ∃ e, env.readFile (inputPath env dir) = Except.error e) ∧
    ∀ e, env.readFile (inputPath env dir) = Except.error e →
      (readData env dir t).1 = Except.error (PanicValue.err e) := by
  constructor
  · cases h : env.readFile (inputPath env dir) with
    | error e =>
      rw [readData_error env dir t e h]
      exact ⟨fun _ => ⟨e, rfl⟩, fun _ => ⟨_, rfl⟩⟩
    | ok c =>
      rw [readData_ok env dir t c h]
      constructor
      · rintro ⟨v, hv⟩
        exact Except.noConfusion hv
      · rintro ⟨e, he⟩
        exact Except.noConfusion he
  · intro e h
    rw [readData_error env dir t e h]

/-- Witness for C3 on a file system without files: the read fails and `readData`
panics with the error of that read. -/
theorem readData_panics_iff_read_fails_witness :
    (readData noFile "./data" []).1
      = Except.error (PanicValue.err
          (PathError.mk "open" "./data/day01.txt" "no such file or directory")) :=
  (readData_panics_iff_read_fails noFile "./data" []).2 _ rfl

/-- C4: when the input file is read successfully with contents `c`, `readData`
returns a contiguous piece `r` of `c` (`c = pre ++ r ++ suf`, so everything
between the two cuts is kept unchanged) where the removed `pre` and `suf` consist
only of white space characters and `r` neither starts nor ends with a white space
character. -/
theorem readData_returns_trimmed (env : Env) (dir : String) (c : GoString) (t : List Event)
    (h : env.readFile (inputPath env dir) = Except.ok c) :
    ∃ r pre suf, (readData env dir t).1 = Except.ok r ∧ c = pre ++ r ++ suf ∧
      WhiteSpaceOnly pre ∧ WhiteSpaceOnly suf ∧
      (∀ e q, e ∈ whiteSpaceEncodings → r ≠ e ++ q) ∧
      (∀ p e, e ∈ whiteSpaceEncodings → r ≠ p ++ e) := by
  obtain ⟨a, m, h1, h2, h3, h4, h5, h6, h7⟩ := TrimSpace_spec c
  refine ⟨TrimSpace c, c.take a, c.drop m, ?_, ?_, (allSpaces_iff_whiteSpaceOnly _).mp h4,
    (allSpaces_iff_whiteSpaceOnly _).mp h5, (startsWithSpace_false_iff _).mp h6,
    (endsWithSpace_false_iff _).mp h7⟩
  · rw [readData_ok env dir t c h]
  · rw [h3, List.append_assoc, slice_append_drop c a m h1 h2, List.take_append_drop]

/-- Witness for C4: a file holding a space, the letter a, a no-break space
(U+00A0) and a line feed. -/
theorem readData_returns_trimmed_witness :
    (oneFile [0x20, 0x61, 0xC2, 0xA0, 0x0A]).readFile
        (inputPath (oneFile [0x20, 0x61, 0xC2, 0xA0, 0x0A]) "./data")
      = Except.ok [0x20, 0x61, 0xC2, 0xA0, 0x0A] ∧
    ∃ r pre suf, (readData (oneFile [0x20, 0x61, 0xC2, 0xA0, 0x0A]) "./data" []).1 = Except.ok r ∧
      [0x20, 0x61, 0xC2, 0xA0, 0x0A] = pre ++ r ++ suf ∧
      WhiteSpaceOnly pre ∧ WhiteSpaceOnly suf ∧
      (∀ e q, e ∈ whiteSpaceEncodings → r ≠ e ++ q) ∧
      (∀ p e, e ∈ whiteSpaceEncodings → r ≠ p ++ e) :=
  ⟨rfl, readData_returns_trimmed _ "./data" _ [] rfl⟩

/-- C5, counterexample: on the example data `part1()` does not return 0 (nor
`part2()`): the two calls of the test's example case do not both return 0. -/
theorem example_parts_do_not_return_zero :
    ¬ (((exampleData >>= callPart1) []).1 = Except.ok 0 ∧
       ((exampleData >>= callPart2) []).1 = Except.ok 0) := by
  intro h
  exact Except.noConfusion h.1

/-- C5, amended: the expected values `part1Solution` and `part2Solution` are both
the constant 0; on the example data, `part1()` and `part2()` do not return but
panic with "todo"; and for any file contents `parseContents` panics with "todo",
so that the calls of `part1()` and `part2()` on its result are never entered. -/
theorem parts_panic_and_solutions_are_zero (c : GoString) (t : List Event) :
    part1Solution = 0 ∧ part2Solution = 0 ∧
    ((exampleData >>= callPart1) t).1 = Except.error (PanicValue.str "todo") ∧
    ((exampleData >>= callPart2) t).1 = Except.error (PanicValue.str "todo") ∧
    (parseContents c >>= callPart1) t
      = (Except.error (PanicValue.str "todo"), t ++ [Event.enter "parseContents"]) ∧
    (parseContents c >>= callPart2) t
      = (Except.error (PanicValue.str "todo"), t ++ [Event.enter "parseContents"]) :=
  ⟨rfl, rfl, rfl, rfl, rfl, rfl⟩

/-- C6, counterexample: `parseContents("")` does not return a pointer to an
`Input` equal to the one `exampleData()` returns. -/
theorem parseContents_empty_not_exampleData :
    ¬ ∃ p : Input, (parseContents [] []).1 = Except.ok (some p) ∧
      (exampleData []).1 = Except.ok (some p) := by
  rintro ⟨p, h, _⟩
  exact Except.noConfusion h

/-- C6, amended: `exampleData()` returns a non-nil pointer to the empty record
`&Input{}`, and `parseContents` applied to the example input "" does not return:
it panics with "todo". -/
theorem exampleData_value_and_parse_panics (t : List Event) :
    exampleData t = (Except.ok (some Input.mk), t) ∧
    (parseContents [] t).1 = Except.error (PanicValue.str "todo") ∧
    ∀ p : Option Input, (parseContents [] t).1 ≠ Except.ok p :=
  ⟨rfl, rfl, fun _ h => Except.noConfusion h⟩

/-- C7: for every file system, `main` never completes normally and prints
nothing; it attempts exactly one file read, of `Join("./data",
"<package_name>.txt")`; when that read fails it panics with the error of the read,
and otherwise it panics with "todo" after entering `parseContents` and before
`part1` or `part2` is entered. -/
theorem main_never_completes (env : Env) (t : List Event) :
    (∀ u : Unit, (main env t).1 ≠ Except.ok u) ∧
    printed (main env t).2 = printed t ∧
    fileReads (main env t).2 = fileReads t ++ [inputPath env "./data"] ∧
    (∀ e, env.readFile (inputPath env "./data") = Except.error e →
      main env t
        = (Except.error (PanicValue.err e), t ++ [Event.readFile (inputPath env "./data")])) ∧
    (∀ c, env.readFile (inputPath env "./data") = Except.ok c →
      main env t
        = (Except.error (PanicValue.str "todo"),
            t ++ [Event.readFile (inputPath env "./data"), Event.enter "parseContents"])) ∧
    (entered (main env t).2 = entered t ∨
      entered (main env t).2 = entered t ++ ["parseContents"]) := by
  cases h : env.readFile (inputPath env "./data") with
  | error e =>
    rw [main_error env t e h]
    refine ⟨fun u hu => Except.noConfusion hu, ?_, ?_, fun e2 he => ?_, fun c hc => ?_, Or.inl ?_⟩
    · simp [printed_append, printed]
    · simp [fileReads_append, fileReads]
    · cases he
      rfl
    · exact Except.noConfusion hc
    · simp [entered_append, entered]
  | ok c =>
    rw [main_ok env t c h]
    refine ⟨fun u hu => Except.noConfusion hu, ?_, ?_, fun e2 he => ?_, fun c2 hc => ?_, Or.inr ?_⟩
    · simp [printed_append, printed]
    · simp [fileReads_append, fileReads]
    · exact Except.noConfusion he
    · rfl
    · simp [entered_append, entered]

/-- C8: `readData` depends on the file system only through the one path
`Join(dir, "<package_name>.txt")`: two file systems that give the same read
result at that path give the same outcome and the same trace. -/
theorem readData_depends_only_on_input_file (pkg : String) (join : String → String → String)
    (fs1 fs2 : String → Except PathError GoString) (dir : String) (t : List Event)
    (h : fs1 (join dir (pkg ++ ".txt")) = fs2 (join dir (pkg ++ ".txt"))) :
    readData (Env.mk pkg join fs1) dir t = readData (Env.mk pkg join fs2) dir t := by
  cases h1 : fs1 (join dir (pkg ++ ".txt")) with
  | error e =>
    have h2 : fs2 (join dir (pkg ++ ".txt")) = Except.error e := by
      rw [← h, h1]
    rw [readData_error (Env.mk pkg join fs1) dir t e h1,
      readData_error (Env.mk pkg join fs2) dir t e h2]
    rfl
  | ok c =>
    have h2 : fs2 (join dir (pkg ++ ".txt")) = Except.ok c := by
      rw [← h, h1]
    rw [readData_ok (Env.mk pkg join fs1) dir t c h1,
      readData_ok (Env.mk pkg join fs2) dir t c h2]
    rfl

/-- Witness for C8: two file systems that differ at another path and agree at the
input file. -/
theorem readData_depends_only_on_input_file_witness :
    (oneFile [0x61, 0x20]).readFile "./data/other.txt"
      ≠ (twoFiles [0x61, 0x20] [0x62]).readFile "./data/other.txt" ∧
    (oneFile [0x61, 0x20]).readFile "./data/day01.txt"
      = (twoFiles [0x61, 0x20] [0x62]).readFile "./data/day01.txt" ∧
    readData (oneFile [0x61, 0x20]) "./data" []
      = readData (twoFiles [0x61, 0x20] [0x62]) "./data" [] :=
  ⟨fun h => Except.noConfusion h, rfl,
    readData_depends_only_on_input_file "day01" (fun d f => d ++ "/" ++ f)
      (oneFile [0x61, 0x20]).readFile (twoFiles [0x61, 0x20] [0x62]).readFile "./data" [] rfl⟩

/-- C9: every string `readData` returns is a fixed point of `strings.TrimSpace`;
when the read succeeds `readData` returns, and for contents that are empty or
consist only of white space characters it returns the empty string. -/
theorem readData_result_is_trim_fixed_point (env : Env) (dir : String) (t : List Event) :
    (∀ r, (readData env dir t).1 = Except.ok r → TrimSpace r = r) ∧
    (∀ c, env.readFile (inputPath env dir) = Except.ok c →
      ∃ r, (readData env dir t).1 = Except.ok r ∧ TrimSpace r = r ∧
        (WhiteSpaceOnly c → r = [])) := by
  constructor
  · intro r hr
    cases h : env.readFile (inputPath env dir) with
    | error e =>
      rw [readData_error env dir t e h] at hr
      exact Except.noConfusion hr
    | ok c =>
      rw [readData_ok env dir t c h] at hr
      cases hr
      exact TrimSpace_idem c
  · intro c h
    refine ⟨TrimSpace c, ?_, TrimSpace_idem c,
      fun hw => TrimSpace_allSpaces c ((allSpaces_iff_whiteSpaceOnly c).mpr hw)⟩
    rw [readData_ok env dir t c h]

/-- Witness for C9: a file holding a space, an ideographic space (U+3000), a tab
and a line feed consists only of white space characters and is read as the empty
string. -/
theorem readData_result_is_trim_fixed_point_witness :
    WhiteSpaceOnly [0x20, 0xE3, 0x80, 0x80, 0x09, 0x0A] ∧
    ∃ r, (readData (oneFile [0x20, 0xE3, 0x80, 0x80, 0x09, 0x0A]) "./data" []).1 = Except.ok r ∧
      TrimSpace r = r ∧ (WhiteSpaceOnly [0x20, 0xE3, 0x80, 0x80, 0x09, 0x0A] → r = []) :=
  ⟨⟨[[0x20], [0xE3, 0x80, 0x80], [0x09], [0x0A]], by decide, rfl⟩,
    (readData_result_is_trim_fixed_point (oneFile [0x20, 0xE3, 0x80, 0x80, 0x09, 0x0A])
      "./data" []).2 _ rfl⟩

end Aoc
